import Mathlib

/-!
# Verification of paddle_geometric heterogeneous-graph machinery

A shallow embedding of the core operations of the `paddle_geometric`
repository, together with theorems settling the specification's claims
about them.  The embedding follows the Python source:

* `paddle_geometric/nn/conv/hetero_conv.py` (`group`, `HeteroConv`),
* `paddle_geometric/utils/hetero.py` (`check_add_self_loops`,
  `construct_bipartite_edge_index`),
* `paddle_geometric/sampler/utils.py` (`sort_csc`, `to_csc`),
* `paddle_geometric/transforms/rooted_subgraph.py` (`RootedSubgraph.map`,
  `RootedEgoNets.extract`, `RootedRWSubgraph.extract`),
* `paddle_geometric/nn/conv/agnn_conv.py` (`AGNNConv.message`),
* `paddle_geometric/nn/parameter_dict.py` (`ParameterDict` key encoding).

Python dictionaries are modelled as association lists (insertion order is
iteration order, keys unique), integer tensors as `List`s of naturals or
integers, and fallible operations (`KeyError`, `IndexError`, `ValueError`,
shape errors) return `Option`/`Except`.
-/

namespace PG

/-! ## Common graph typing (`paddle_geometric/typing.py`) -/

/-- A node type is a plain string. -/
abbrev NodeType := String

/-- An edge type is a `(source node type, relation, destination node type)`
triple. -/
structure EdgeType where
  src : NodeType
  rel : String
  dst : NodeType
deriving DecidableEq, Repr

/-! ## `check_add_self_loops` (`utils/hetero.py`) and `HeteroConv.__init__`

A paddle module is modelled by the single attribute the code inspects:
`getattr(module, 'add_self_loops', False)`.  `none` models an absent
attribute. -/

/-- The `add_self_loops` attribute of a conv module, `none` when absent. -/
structure ConvModule where
  addSelfLoops : Option Bool
deriving DecidableEq, Repr

/-- `getattr(module, 'add_self_loops', False)`. -/
def convGetAddSelfLoops (m : ConvModule) : Bool :=
  m.addSelfLoops.getD false

/-- `check_add_self_loops(module, edge_types)`: raises `ValueError` when some
edge type in the list is bipartite (`key[0] != key[-1]`) and the module's
`add_self_loops` attribute is truthy. -/
def check_add_self_loops (m : ConvModule) (edgeTypes : List EdgeType) :
    Except String Unit :=
  if (edgeTypes.any fun k => k.src != k.dst) && convGetAddSelfLoops m then
    .error "ValueError: add_self_loops"
  else
    .ok ()

/-- The validation loop of `HeteroConv.__init__`: for every registered edge
type, `check_add_self_loops(module, [edge_type])` is called; the first
`ValueError` aborts construction. -/
def heteroConvInitCheck : List (EdgeType × ConvModule) → Except String Unit
  | [] => .ok ()
  | p :: t =>
    match check_add_self_loops p.2 [p.1] with
    | .error e => .error e
    | .ok _ => heteroConvInitCheck t


/-! ## `ParameterDict` key encoding (`nn/parameter_dict.py`)

Keys are either strings or tuples of strings.  Python strings are modelled
as `List Char`; `str.replace` with single-character arguments is a
character-wise map, and `'___'.join` / `str.split('___')` / `'___' in s`
are modelled by `joinKeySep` / `splitKeySep` / `hasKeySep` (Python's
`split` consumes leftmost non-overlapping occurrences of the separator).
The attribute set `CLASS_ATTRS = set(dir(paddle.nn.LayerDict))` is a
parameter `attrs`; `layerDictAttrs` below is a concrete representative. -/

/-- A `ParameterDict` key: a string or a tuple of strings. -/
inductive PDKey where
  | str (s : List Char)
  | tup (ts : List (List Char))
deriving DecidableEq, Repr

/-- Python `s.replace(old, new)` for single-character `old` and `new`. -/
def replaceChar (old new : Char) (s : List Char) : List Char :=
  s.map fun c => if c = old then new else c

/-- Python `'___'.join(parts)`. -/
def joinKeySep : List (List Char) → List Char
  | [] => []
  | [p] => p
  | p :: ps => p ++ '_' :: '_' :: '_' :: joinKeySep ps

/-- Python `'___' in s`. -/
def hasKeySep : List Char → Bool
  | [] => false
  | c :: rest => (decide (c = '_') && decide (rest.take 2 = ['_', '_'])) || hasKeySep rest

/-- Python `s.split('___')`: scan left to right and break at each leftmost
occurrence of the three-underscore separator. -/
def splitKeySepAux : List Char → List Char → List (List Char)
  | '_' :: '_' :: '_' :: rest, acc => acc.reverse :: splitKeySepAux rest []
  | c :: rest, acc => splitKeySepAux rest (c :: acc)
  | [], acc => [acc.reverse]

/-- Python `s.split('___')`. -/
def splitKeySep (s : List Char) : List (List Char) :=
  splitKeySepAux s []

/-- Python `key[1:-1]`. -/
def pyStrip (s : List Char) : List Char :=
  (s.drop 1).dropLast

/-- The tuple-to-string step of `to_internal_key`: a tuple key is joined
with `___` and wrapped in `<...>`; `none` models the `AssertionError` raised
on tuple keys of length at most 1; string keys pass through. -/
def internalRaw : PDKey → Option (List Char)
  | .tup ts =>
    if ts.length ≤ 1 then none
    else some ('<' :: (joinKeySep ts ++ ['>']))
  | .str s => some s

/-- The remaining steps of `to_internal_key`: a key that is a class
attribute is wrapped in `<...>`, then `.` is replaced by `#`. -/
def internalWrap (attrs : List (List Char)) (key : List Char) : List Char :=
  replaceChar '.' '#' (if key ∈ attrs then '<' :: (key ++ ['>']) else key)

/-- `ParameterDict.to_internal_key`. -/
def to_internal_key (attrs : List (List Char)) (k : PDKey) :
    Option (List Char) :=
  (internalRaw k).map (internalWrap attrs)

/-- The first conditional of `to_external_key` (applied after `#` has been
replaced by `.`): strip `<...>` around a class attribute.  `none` models the
`IndexError` raised by `key[0]` / `key[-1]` on an empty string. -/
def externalStrip (attrs : List (List Char)) (k1 : List Char) :
    Option (List Char) := do
  let h1 ← k1.head?
  let l1 ← k1.getLast?
  some (if h1 = '<' ∧ l1 = '>' ∧ pyStrip k1 ∈ attrs then pyStrip k1 else k1)

/-- The second conditional of `to_external_key`: a key of the form
`<...>` containing `___` is split into a tuple. -/
def externalSplit (k2 : List Char) : Option PDKey := do
  let h2 ← k2.head?
  let l2 ← k2.getLast?
  if h2 = '<' ∧ l2 = '>' ∧ hasKeySep k2 then
    pure (.tup (splitKeySep (pyStrip k2)))
  else
    pure (.str k2)

/-- `ParameterDict.to_external_key`. -/
def to_external_key (attrs : List (List Char)) (key : List Char) :
    Option PDKey :=
  (externalStrip attrs (replaceChar '#' '.' key)).bind externalSplit

/-- `to_external_key(to_internal_key(key))`. -/
def pdRoundTrip (attrs : List (List Char)) (k : PDKey) : Option PDKey :=
  (to_internal_key attrs k).bind (to_external_key attrs)

/-- A concrete representative of `set(dir(paddle.nn.LayerDict))`: a set of
plain Python identifiers.  The round-trip theorem is proved for every
attribute set whose members are of this shape (`GoodAttrs`). -/
def layerDictAttrs : List (List Char) :=
  ["clear", "items", "keys", "pop", "update", "values"].map String.toList

/-- The attribute set consists of nonempty identifier-like strings: no `<`,
`>` or `#`, and no `___` run.  `dir()` of a Python class only returns such
names. -/
def GoodAttrs (attrs : List (List Char)) : Prop :=
  ∀ a ∈ attrs, a ≠ [] ∧ '<' ∉ a ∧ '>' ∉ a ∧ '#' ∉ a ∧ hasKeySep a = false

/-- The amended key condition: string keys are nonempty, contain no `#` and
do not both start with `<` and end with `>`; tuple keys have length at least
2 and components free of `.`, `#` and `___` that do not end in `_`. -/
def GoodKey : PDKey → Prop
  | .str s => s ≠ [] ∧ '#' ∉ s ∧ ¬(s.head? = some '<' ∧ s.getLast? = some '>')
  | .tup ts => 2 ≤ ts.length ∧
      ∀ t ∈ ts, '.' ∉ t ∧ '#' ∉ t ∧ hasKeySep t = false ∧ t.getLast? ≠ some '_'

instance : (k : PDKey) → Decidable (GoodKey k)
  | .str _ => inferInstanceAs (Decidable (_ ∧ _ ∧ _))
  | .tup _ => inferInstanceAs (Decidable (_ ∧ _))

instance (attrs : List (List Char)) : Decidable (GoodAttrs attrs) :=
  inferInstanceAs (Decidable (∀ a ∈ attrs, _))



/-! ## CSC conversion (`sampler/utils.py`)

`to_csc` on a `Data` object with a dense `[2, E]` `edge_index`, called with
`is_sorted=False`, `src_node_time=None`, `edge_time=None`.  The helpers
`index_sort` (`paddle_geometric.utils`) and `index2ptr`
(`paddle_geometric.index`) are not under `src/` and are modelled from the
spec.  Edge indices are `List Nat`s of length `E`. -/

/-- Comparison of value-index pairs by value, as used by `index_sort`. -/
def leFst (a b : Nat × Nat) : Prop := a.1 ≤ b.1

instance : DecidableRel leFst := fun a b => Nat.decLe a.1 b.1

instance : IsTotal (Nat × Nat) leFst := ⟨fun a b => Nat.le_total a.1 b.1⟩

instance : IsTrans (Nat × Nat) leFst := ⟨fun _ _ _ => Nat.le_trans⟩

/-- Modelled from the spec: `index_sort` (`paddle_geometric.utils`, not
under `src/`) sorts the input vector and also returns the sorting
permutation (`argsort`), realised here by sorting value-index pairs. -/
def index_sort (col : List Nat) : List Nat × List Nat :=
  let pairs := List.insertionSort leFst (col.zip (List.range col.length))
  (pairs.map Prod.fst, pairs.map Prod.snd)

/-- `sort_csc(row, col)` with `src_node_time = edge_time = None`: sort by
column and return `(row[perm], sorted col, perm)`. -/
def sort_csc (row col : List Nat) : List Nat × List Nat × List Nat :=
  let sp := index_sort col
  (sp.2.map (fun i => row.getD i 0), sp.1, sp.2)

/-- Modelled from the spec: `index2ptr(col, size)`
(`paddle_geometric.index`, not under `src/`) converts a sorted index vector
into a compressed pointer vector of length `size + 1` whose `j`-th entry is
the number of indices smaller than `j`. -/
def index2ptr (col : List Nat) (size : Nat) : List Nat :=
  (List.range (size + 1)).map fun j => col.countP (fun c => decide (c < j))

/-- `to_csc(data)` for a `Data` object whose dense `edge_index` rows are
`row` and `col`, with `numDst = data.size(1)` destination nodes.  Returns
`(colptr, row[perm], perm)`. -/
def to_csc (row col : List Nat) (numDst : Nat) :
    List Nat × List Nat × List Nat :=
  let rcp := sort_csc row col
  (index2ptr rcp.2.1 numDst, rcp.1, rcp.2.2)


/-! ## `construct_bipartite_edge_index` (`utils/hetero.py`)

Dense edge indices only: `is_sparse` is false for every dense tensor, so
the `SparseTensor` branches are not taken.  A dense `[2, E]` edge index is a
pair of integer lists, an `edge_attr` tensor of shape `[E, F]` a list of
rows.  Python dictionaries are association lists; a failed dictionary
lookup (`KeyError`), `paddle.expand` on a first dimension other than 1, and
`paddle.concat` of an empty tensor list are modelled by `none`. -/

/-- A dense `[2, E]` edge index: the list of sources and of destinations. -/
abbrev DenseEI := List Int × List Int

/-- The attribute adjustment of `construct_bipartite_edge_index`: a value
whose first dimension differs from the edge count `e` is broadcast by
`paddle.expand(value, [e, -1])`, which requires first dimension 1. -/
def attrStep (value : List (List Int)) (e : Nat) : Option (List (List Int)) :=
  if value.length ≠ e then
    match value with
    | [r] => some (List.replicate e r)
    | _ => none
  else some value

/-- One iteration of the `construct_bipartite_edge_index` loop: shift the
edge type's (cloned) edge index by its source and destination offsets and
append it, and append the (possibly expanded) attribute rows. -/
def cbeiStep (edgeIndexDict : List (EdgeType × DenseEI))
    (dstOffsets : List (NodeType × Int))
    (edgeAttrDict : Option (List (EdgeType × List (List Int))))
    (acc : List DenseEI × List (List (List Int))) (p : EdgeType × Int) :
    Option (List DenseEI × List (List (List Int))) := do
  let ei ← edgeIndexDict.lookup p.1
  let dstOff ← dstOffsets.lookup p.1.dst
  let shifted : DenseEI := (ei.1.map (· + p.2), ei.2.map (· + dstOff))
  match edgeAttrDict with
  | none => some (acc.1 ++ [shifted], acc.2)
  | some d => do
    let v ← d.lookup p.1
    let v2 ← attrStep v shifted.1.length
    some (acc.1 ++ [shifted], acc.2 ++ [v2])

/-- `construct_bipartite_edge_index`: iterate over `src_offset_dict`,
shift each edge type's (cloned) edge index by its source and destination
offsets, collect attributes, and concatenate. -/
def construct_bipartite_edge_index
    (srcOffsets : List (EdgeType × Int))
    (edgeIndexDict : List (EdgeType × DenseEI))
    (dstOffsets : List (NodeType × Int))
    (edgeAttrDict : Option (List (EdgeType × List (List Int)))) :
    Option (DenseEI × Option (List (List Int))) := do
  let acc ← srcOffsets.foldlM (cbeiStep edgeIndexDict dstOffsets edgeAttrDict) ([], [])
  if acc.1.isEmpty then none
  else
    some (((acc.1.map Prod.fst).flatten, (acc.1.map Prod.snd).flatten),
      match edgeAttrDict with
      | none => none
      | some _ => some acc.2.flatten)

/-- Specification-side description of one edge type's contribution: its
dense edge index with the first row increased by the source offset and the
second row by the destination type's offset. -/
def shiftedEI (edgeIndexDict : List (EdgeType × DenseEI))
    (dstOffsets : List (NodeType × Int)) (p : EdgeType × Int) :
    Option DenseEI := do
  let ei ← edgeIndexDict.lookup p.1
  let dstOff ← dstOffsets.lookup p.1.dst
  some (ei.1.map (· + p.2), ei.2.map (· + dstOff))

/-- Specification-side description of one edge type's attribute rows, after
the expansion that matches the edge count. -/
def attrFor (d : List (EdgeType × List (List Int)))
    (edgeIndexDict : List (EdgeType × DenseEI)) (p : EdgeType × Int) :
    Option (List (List Int)) := do
  let ei ← edgeIndexDict.lookup p.1
  let v ← d.lookup p.1
  attrStep v ei.1.length


/-! ## Frame property of `construct_bipartite_edge_index` (store semantics)

To state that `construct_bipartite_edge_index` does not mutate its inputs,
tensors live in a store and the dictionaries hold references into it.
`edge_index.clone()` allocates a fresh cell, the in-place `+=` writes to
that fresh cell, attribute tensors are only read (`paddle.expand` returns a
view without writing), and the final `paddle.concat` allocates fresh output
tensors from reads. -/

/-- A stored tensor: a dense edge index or an attribute matrix. -/
inductive PVal where
  | ei (t : DenseEI)
  | mat (m : List (List Int))
deriving DecidableEq, Repr

/-- A tensor store. -/
abbrev Store := List PVal

/-- Read a dense edge index from the store. -/
def storeGetEI (s : Store) (i : Nat) : Option DenseEI :=
  match s.get? i with
  | some (.ei t) => some t
  | _ => none

/-- Read an attribute matrix from the store. -/
def storeGetMat (s : Store) (i : Nat) : Option (List (List Int)) :=
  match s.get? i with
  | some (.mat m) => some m
  | _ => none

/-- One iteration of the `construct_bipartite_edge_index` loop under the
store semantics: look up the edge-index reference, `clone()` it into a
fresh cell, apply the two in-place offset additions to that cell, and read
(and possibly expand) the attribute rows. -/
def cbeiStoreStep (edgeIndexRefs : List (EdgeType × Nat))
    (dstOffsets : List (NodeType × Int))
    (edgeAttrRefs : Option (List (EdgeType × Nat)))
    (acc : Store × List Nat × List (List (List Int))) (p : EdgeType × Int) :
    Option (Store × List Nat × List (List (List Int))) := do
  let ref ← edgeIndexRefs.lookup p.1
  let t ← storeGetEI acc.1 ref
  let dstOff ← dstOffsets.lookup p.1.dst
  let cloneId := acc.1.length
  let store1 := acc.1 ++ [.ei t]
  let sh : DenseEI := (t.1.map (· + p.2), t.2.map (· + dstOff))
  let store2 := store1.set cloneId (.ei sh)
  match edgeAttrRefs with
  | none => some (store2, acc.2.1 ++ [cloneId], acc.2.2)
  | some dr => do
    let aref ← dr.lookup p.1
    let v ← storeGetMat store2 aref
    let v2 ← attrStep v sh.1.length
    some (store2, acc.2.1 ++ [cloneId], acc.2.2 ++ [v2])

/-- The loop of `construct_bipartite_edge_index` under the store
semantics, returning the final store, the references of the shifted
clones, and the collected attribute rows. -/
def construct_bipartite_store (srcOffsets : List (EdgeType × Int))
    (edgeIndexRefs : List (EdgeType × Nat))
    (dstOffsets : List (NodeType × Int))
    (edgeAttrRefs : Option (List (EdgeType × Nat)))
    (store : Store) :
    Option (Store × List Nat × List (List (List Int))) :=
  srcOffsets.foldlM (cbeiStoreStep edgeIndexRefs dstOffsets edgeAttrRefs)
    (store, [], [])


/-! ## `HeteroConv` (`nn/conv/hetero_conv.py`)

Tensors are abstract values of a type `T`; the paddle calls used by
`group` (`paddle.stack`, `paddle.concat`, `getattr(paddle, aggr)`) are
collected in a `PaddleOps` structure.  Conv layers are functions from their
positional and keyword arguments to an output tensor; keyword names are
`List Char`.  `ModuleDict` round-trips the registered edge types, so
`self.convs.items()` is the original association list. -/

/-- The paddle tensor operations used by `group`; `reduceNamed` is
`getattr(paddle, aggr)` applied on axis 0, with the tuple projection
`out[0]` folded in. -/
structure PaddleOps (T : Type) where
  stackAxis1 : List T → T
  concatLast : List T → T
  stackAxis0 : List T → T
  reduceNamed : String → T → T

/-- `group(xs, aggr)`: `None` for an empty list; a stack on axis 1 when
`aggr` is `None`; the single element for a singleton list; concatenation
along the last axis for `"cat"`; otherwise the reduction named `aggr` of
the stack on axis 0. -/
def group {T : Type} (ops : PaddleOps T) (xs : List T) (aggr : Option String) :
    Option T :=
  match xs, aggr with
  | [], _ => none
  | xs, none => some (ops.stackAxis1 xs)
  | [x], some _ => some x
  | xs, some a =>
    if a = "cat" then some (ops.concatLast xs)
    else some (ops.reduceNamed a (ops.stackAxis0 xs))

/-- A forward-argument value handed to a conv layer: a dictionary value
itself, or the `(value_dict.get(src), value_dict.get(dst))` pair built for
bipartite layers. -/
inductive HArg (V : Type) where
  | val (v : V)
  | pair (a b : Option V)

/-- One `*_dict` argument of `HeteroConv.forward`: a Python dictionary
that may hold both edge-type keys and node-type keys. -/
structure ArgDict (V : Type) where
  edge : List (EdgeType × V)
  node : List (NodeType × V)

/-- The value one dictionary contributes for edge type `et`:
`value_dict[edge_type]` when present, else `value_dict[src]` for
homogeneous types, else the `(get(src), get(dst))` pair when either node
type is present, else nothing. -/
def pickArg {V : Type} (et : EdgeType) (d : ArgDict V) : Option (HArg V) :=
  match d.edge.lookup et with
  | some v => some (.val v)
  | none =>
    if et.src = et.dst then
      match d.node.lookup et.src with
      | some v => some (.val v)
      | none => none
    else if (d.node.lookup et.src).isSome || (d.node.lookup et.dst).isSome then
      some (.pair (d.node.lookup et.src) (d.node.lookup et.dst))
    else none

/-- `has_edge_level_arg`: some positional or keyword dictionary contains
the edge type itself as a key. -/
def hasEdgeLevelArg {V : Type} (et : EdgeType) (argsDicts : List (ArgDict V))
    (kwargsDicts : List (List Char × ArgDict V)) : Bool :=
  argsDicts.any (fun d => (d.edge.lookup et).isSome)
    || kwargsDicts.any (fun p => (p.2.edge.lookup et).isSome)

/-- The suffix `"_dict"` required of keyword-argument names. -/
def dictSuffix : List Char := ['_', 'd', 'i', 'c', 't']

/-- Python `arg.endswith('_dict')`. -/
def nameHasDictSuffix (name : List Char) : Bool :=
  dictSuffix.isSuffixOf name

/-- Python `arg[:-5]`. -/
def nameDropDictSuffix (name : List Char) : List Char :=
  name.take (name.length - 5)

/-- The keyword-argument assembly of `HeteroConv.forward`: names must end
with `_dict` (else `ValueError`), and each dictionary contributes its
`pickArg` value under the stripped name. -/
def buildKwargs {V : Type} (et : EdgeType)
    (kwargsDicts : List (List Char × ArgDict V)) :
    Except String (List (List Char × HArg V)) :=
  kwargsDicts.foldlM
    (fun acc p =>
      if nameHasDictSuffix p.1 then
        match pickArg et p.2 with
        | some a => .ok (acc ++ [(nameDropDictSuffix p.1, a)])
        | none => .ok acc
      else .error "ValueError: kwargs")
    []

/-- Specification-side form of `buildKwargs` when every name is valid. -/
def kwargsFor {V : Type} (et : EdgeType)
    (kwargsDicts : List (List Char × ArgDict V)) :
    List (List Char × HArg V) :=
  kwargsDicts.filterMap
    (fun p => (pickArg et p.2).map (fun a => (nameDropDictSuffix p.1, a)))

/-- `out_dict` update: append to the destination's list, inserting the key
on first use (Python dictionaries preserve first-insertion order). -/
def outDictAdd {T : Type} (od : List (NodeType × List T)) (dst : NodeType)
    (out : T) : List (NodeType × List T) :=
  if (od.lookup dst).isSome then
    od.map (fun q => if q.1 = dst then (q.1, q.2 ++ [out]) else q)
  else od ++ [(dst, [out])]

/-- One iteration of the `HeteroConv.forward` loop over `self.convs`. -/
def heteroStep {V T : Type} (argsDicts : List (ArgDict V))
    (kwargsDicts : List (List Char × ArgDict V))
    (od : List (NodeType × List T))
    (pc : EdgeType × (List (HArg V) → List (List Char × HArg V) → T)) :
    Except String (List (NodeType × List T)) := do
  let kwargs ← buildKwargs pc.1 kwargsDicts
  if hasEdgeLevelArg pc.1 argsDicts kwargsDicts then
    pure (outDictAdd od pc.1.dst (pc.2 (argsDicts.filterMap (pickArg pc.1)) kwargs))
  else
    pure od

/-- `HeteroConv.forward`: dispatch each registered conv on its edge type's
arguments (skipping convs that receive no edge-level argument), collect the
outputs per destination node type, and `group` them.  The final `filterMap`
equals the Python in-place `group` map: collected lists are never empty, so
`group` never returns `None` here. -/
def heteroConvForward {V T : Type} (ops : PaddleOps T) (aggr : Option String)
    (convs : List (EdgeType × (List (HArg V) → List (List Char × HArg V) → T)))
    (argsDicts : List (ArgDict V))
    (kwargsDicts : List (List Char × ArgDict V)) :
    Except String (List (NodeType × T)) := do
  let od ← convs.foldlM (heteroStep argsDicts kwargsDicts) []
  pure (od.filterMap (fun q => (group ops q.2 aggr).map (fun t => (q.1, t))))

/-- Specification-side list of the outputs of the eligible convs targeting
destination type `dstT`, in registration order. -/
def outputsFor {V T : Type}
    (convs : List (EdgeType × (List (HArg V) → List (List Char × HArg V) → T)))
    (argsDicts : List (ArgDict V))
    (kwargsDicts : List (List Char × ArgDict V)) (dstT : NodeType) : List T :=
  (convs.filter (fun pc =>
      pc.1.dst == dstT && hasEdgeLevelArg pc.1 argsDicts kwargsDicts)).map
    (fun pc => pc.2 (argsDicts.filterMap (pickArg pc.1))
      (kwargsFor pc.1 kwargsDicts))

/-- Optionally extend an `out_dict` entry. -/
def optAppend {T : Type} (x : Option (List T)) (ys : List T) :
    Option (List T) :=
  match x, ys with
  | none, [] => none
  | none, ys => some ys
  | some xs, ys => some (xs ++ ys)


/-- The entry of the dictionary returned by `HeteroConv.forward` for a node
type (`none` for an absent key or a raised `ValueError`). -/
def heteroForwardLookup {V T : Type} (ops : PaddleOps T) (aggr : Option String)
    (convs : List (EdgeType × (List (HArg V) → List (List Char × HArg V) → T)))
    (argsDicts : List (ArgDict V))
    (kwargsDicts : List (List Char × ArgDict V)) (dstT : NodeType) : Option T :=
  match heteroConvForward ops aggr convs argsDicts kwargsDicts with
  | .ok od => od.lookup dstT
  | .error _ => none


/-! ## `RootedSubgraph.map` (`transforms/rooted_subgraph.py`)

A graph has `n = num_nodes` nodes and `edges` is the list of columns of
`edge_index`; a membership matrix `n_mask` of shape `[n, n]` is a boolean
function of (subgraph root, node).  `paddle.nonzero(·, as_tuple=True)`
enumerates true entries in row-major order.  Out-of-range tensor indexing
is `none`. -/

/-- Fancy indexing `l[ids]`, `none` on an out-of-range index. -/
def optIndex {α : Type} (f : Nat → Option α) : List Nat → Option (List α)
  | [] => some []
  | i :: t => do
    let b ← f i
    let bs ← optIndex f t
    some (b :: bs)

/-- Row-major nonzero pairs of the node mask: `(n_sub_batch, n_id)`. -/
def nPairs (n : Nat) (mask : Nat → Nat → Bool) : List (Nat × Nat) :=
  (List.range n).flatMap
    (fun b => ((List.range n).filter (fun v => mask b v)).map (fun v => (b, v)))

/-- Row-major nonzero pairs of the edge mask
`n_mask[:, edge_index[0]] & n_mask[:, edge_index[1]]`:
`(e_sub_batch, e_id)`. -/
def ePairs (n : Nat) (edges : List (Nat × Nat)) (mask : Nat → Nat → Bool) :
    List (Nat × Nat) :=
  (List.range n).flatMap
    (fun b => ((List.range edges.length).filter
        (fun t => mask b (edges.getD t (0, 0)).1
          && mask b (edges.getD t (0, 0)).2)).map
      (fun t => (b, t)))

/-- Position of the (unique) scatter write at `q`. -/
def scatterIndex (np : List (Nat × Nat)) (q : Nat × Nat) : Nat :=
  match np with
  | [] => 0
  | p :: t => if p = q then 0 else scatterIndex t q + 1

/-- The matrix after `node_map = ones([n, n]); node_map[n_sub_batch, n_id]
= arange(n_id.numel())`: the write positions `np` are distinct, so the
entry at `(b, v)` is the position of `(b, v)` in `np`, and `1` elsewhere. -/
def nodeMapEntry (np : List (Nat × Nat)) (b v : Nat) : Nat :=
  if (b, v) ∈ np then scatterIndex np (b, v) else 1

/-- Indexing the flattened `[n, n]` node map. -/
def flatNodeMap (n : Nat) (np : List (Nat × Nat)) (i : Nat) : Option Nat :=
  if i < n * n then some (nodeMapEntry np (i / n) (i % n)) else none

/-- The tuple returned by `RootedSubgraph.map`. -/
structure RSMapOut where
  subEdgeIndex : List (Nat × Nat)
  nId : List Nat
  eId : List Nat
  nSubBatch : List Nat
  eSubBatch : List Nat
deriving DecidableEq, Repr

/-- `RootedSubgraph.map(data, n_mask)`: enumerate member nodes and member
edges, select the member edges, add the per-edge offset
`(arange(n_id.numel()) * num_nodes)[e_sub_batch]` to both endpoint rows,
and relabel through the flattened `node_map`. -/
def rsMap (n : Nat) (edges : List (Nat × Nat)) (mask : Nat → Nat → Bool) :
    Option RSMapOut := do
  let se ← optIndex (fun t => edges[t]?) ((ePairs n edges mask).map Prod.snd)
  let offs ← optIndex (fun b => (List.range (nPairs n mask).length)[b]?)
    ((ePairs n edges mask).map Prod.fst)
  let xs ← optIndex (fun i => flatNodeMap n (nPairs n mask) i)
    (((se.zip offs).map (fun p => (p.1.1 + p.2 * n, p.1.2 + p.2 * n))).map
      Prod.fst)
  let ys ← optIndex (fun i => flatNodeMap n (nPairs n mask) i)
    (((se.zip offs).map (fun p => (p.1.1 + p.2 * n, p.1.2 + p.2 * n))).map
      Prod.snd)
  pure ⟨xs.zip ys, (nPairs n mask).map Prod.snd,
    (ePairs n edges mask).map Prod.snd, (nPairs n mask).map Prod.fst,
    (ePairs n edges mask).map Prod.fst⟩


/-! ## `RootedEgoNets.extract` (`transforms/rooted_subgraph.py`)

`to_paddle_csc_tensor(edge_index, size=data.size()).t()` is the transposed
adjacency matrix holding one (float32) unit per edge; `n_mask` starts as
the identity and is updated `num_hops` times by `n_mask += adj_t @ n_mask`.
The entries are walk counts, modelled over `Nat`: float32 sums of
nonnegative counts preserve zero and positivity, so the membership
predicate `n_mask > 0` agrees with the exact count. -/

/-- The walk-count matrix `n_mask` after `k` update steps; entry `(i, j)`
counts walks from `j` to `i` of length at most `k`. -/
def egoMask (n : Nat) (edges : List (Nat × Nat)) : Nat → Nat → Nat → Nat
  | 0 => fun i j => if i = j then 1 else 0
  | k + 1 => fun i j =>
      egoMask n edges k i j +
        ∑ u ∈ Finset.range n, edges.count (u, i) * egoMask n edges k u j

/-- The Boolean mask `n_mask > 0` passed to `RootedSubgraph.map`. -/
def egoMaskB (k n : Nat) (edges : List (Nat × Nat)) (b v : Nat) : Bool :=
  decide (0 < egoMask n edges k b v)

/-- `RootedEgoNets(num_hops=k).extract(data)`. -/
def egoExtract (k n : Nat) (edges : List (Nat × Nat)) : Option RSMapOut :=
  rsMap n edges (egoMaskB k n edges)

/-- A walk of length at most `k` from `a` to `c` along the listed edges. -/
def walkLe (edges : List (Nat × Nat)) : Nat → Nat → Nat → Prop
  | 0, a, c => a = c
  | k + 1, a, c => walkLe edges k a c ∨ ∃ u, (u, c) ∈ edges ∧ walkLe edges k a u


/-! ## `RootedRWSubgraph.extract` (`transforms/rooted_subgraph.py`)

`random_walk` (`paddle_geometric.utils`) is not under `src/`; the walk
tensor it returns is a parameter: one row of `walk_length + 1` node ids per
start node, each row beginning at its start node.  The mask construction
`n_mask[start, walk.reshape([-1])] = True` is a scatter of `True` at the
zipped (expanded start, flattened walk) positions. -/

/-- `start = paddle.tile(arange(n).reshape([-1, 1]), [1, repeat])
.reshape([-1])`: each node id repeated `repeat` times. -/
def rwStart (n r : Nat) : List Nat :=
  (List.range n).flatMap (fun b => List.replicate r b)

/-- The start vector tiled once more over the `walk_length + 1` positions
of each walk. -/
def rwStartExpanded (n r wl : Nat) : List Nat :=
  (rwStart n r).flatMap (fun b => List.replicate (wl + 1) b)

/-- The scatter `n_mask[start, walk.reshape([-1])] = True` on an all-false
matrix: entry `(b, v)` is true iff some scatter position hits it. -/
def rwMask (n r wl : Nat) (walk : List (List Nat)) (b v : Nat) : Bool :=
  decide ((b, v) ∈ (rwStartExpanded n r wl).zip walk.flatten)

/-- `RootedRWSubgraph(walk_length, repeat).extract(data)`, as a function of
the sampled walk tensor. -/
def rwExtract (n r wl : Nat) (walk : List (List Nat))
    (edges : List (Nat × Nat)) : Option RSMapOut :=
  rsMap n edges (rwMask n r wl walk)

/-- Modelled from the spec: the denominator of the softmax-over-segments
normalization — the sum of the exponentials of the scores of all entries
whose target segment is `i`. -/
noncomputable def segExpSum (src : List ℝ) (index : List Nat) (i : Nat) : ℝ :=
  (((src.zip index).filter (fun q => q.2 == i)).map (fun q => Real.exp q.1)).sum

/-- Modelled from the spec: segment-wise softmax of the scores `src` grouped
by the target vector `index`: entry `e` receives `exp(src[e])` divided by the
sum of `exp(src[e'])` over all entries of the same segment. -/
noncomputable def segSoftmax (src : List ℝ) (index : List Nat) : List ℝ :=
  (src.zip index).map (fun p => Real.exp p.1 / segExpSum src index p.2)

/-- The attention coefficients of AGNNConv.message: `beta` times the cosine
similarity of each edge's endpoints, normalized per destination segment by
the segment softmax. -/
noncomputable def agnnAlpha (beta : ℝ) (cosSim : List ℝ) (index : List Nat) :
    List ℝ :=
  segSoftmax (cosSim.map (fun c => beta * c)) index

/-- The per-edge messages of AGNNConv.message: the source feature of each
edge scaled by its attention coefficient. -/
noncomputable def agnnMessage (beta : ℝ) (cosSim : List ℝ) (index : List Nat)
    (xj : List ℝ) : List ℝ :=
  (xj.zip (agnnAlpha beta cosSim index)).map (fun p => p.1 * p.2)

/-- The aggregated output at target node `i`: the sum of the messages of the
edges pointing to `i` (AGNNConv uses sum aggregation). -/
noncomputable def agnnOut (beta : ℝ) (cosSim : List ℝ) (index : List Nat)
    (xj : List ℝ) (i : Nat) : ℝ :=
  ((((agnnMessage beta cosSim index xj).zip index).filter
      (fun q => q.2 == i)).map (fun q => q.1)).sum

end PG

namespace PG

/-! ## Theorems -/

/-- The boolean guard of `check_add_self_loops`, in propositional form. -/
theorem check_guard_iff (m : ConvModule) (ets : List EdgeType) :
    ((ets.any fun k => k.src != k.dst) && convGetAddSelfLoops m) = true ↔
      (∃ k ∈ ets, k.src ≠ k.dst) ∧ m.addSelfLoops = some true := by
  rw [Bool.and_eq_true, List.any_eq_true]
  unfold convGetAddSelfLoops
  constructor
  · rintro ⟨⟨k, hk, hkne⟩, hattr⟩
    refine ⟨⟨k, hk, by simpa using hkne⟩, ?_⟩
    cases hm : m.addSelfLoops with
    | none => rw [hm] at hattr; simp at hattr
    | some b =>
      rw [hm] at hattr
      cases b with
      | false => simp at hattr
      | true => rfl
  · rintro ⟨⟨k, hk, hkne⟩, hattr⟩
    exact ⟨⟨k, hk, by simpa using hkne⟩, by simp [hattr]⟩

/-- `check_add_self_loops` fails exactly when its guard holds. -/
theorem check_isOk_false_iff (m : ConvModule) (ets : List EdgeType) :
    (check_add_self_loops m ets).isOk = false ↔
      (∃ k ∈ ets, k.src ≠ k.dst) ∧ m.addSelfLoops = some true := by
  rw [← check_guard_iff m ets]
  unfold check_add_self_loops
  cases hb : ((ets.any fun k => k.src != k.dst) && convGetAddSelfLoops m) with
  | false => simp [hb, Except.isOk, Except.toBool]
  | true => simp [hb, Except.isOk, Except.toBool]

/-- C8: `check_add_self_loops` raises `ValueError` exactly when the edge-type
list contains a bipartite edge type and the module's `add_self_loops`
attribute is present and true; and constructing a `HeteroConv` raises exactly
when some registered `(edge_type, module)` pair has a bipartite edge type and
a true `add_self_loops` attribute. -/
theorem check_add_self_loops_error_iff
    (m : ConvModule) (edgeTypes : List EdgeType)
    (convs : List (EdgeType × ConvModule)) :
    ((check_add_self_loops m edgeTypes).isOk = false ↔
      ((∃ k ∈ edgeTypes, k.src ≠ k.dst) ∧ m.addSelfLoops = some true)) ∧
    ((heteroConvInitCheck convs).isOk = false ↔
      (∃ p ∈ convs, p.1.src ≠ p.1.dst ∧ p.2.addSelfLoops = some true)) := by
  refine ⟨check_isOk_false_iff m edgeTypes, ?_⟩
  induction convs with
  | nil => simp [heteroConvInitCheck, Except.isOk, Except.toBool]
  | cons p t ih =>
    unfold heteroConvInitCheck
    by_cases hp : p.1.src ≠ p.1.dst ∧ p.2.addSelfLoops = some true
    · have herr : (check_add_self_loops p.2 [p.1]).isOk = false := by
        rw [check_isOk_false_iff]
        exact ⟨⟨p.1, List.mem_singleton_self p.1, hp.1⟩, hp.2⟩
      have : check_add_self_loops p.2 [p.1] = .error "ValueError: add_self_loops" := by
        unfold check_add_self_loops at herr ⊢
        cases hb : ((([p.1].any fun k => k.src != k.dst)) && convGetAddSelfLoops p.2) with
        | false => rw [hb] at herr; simp [Except.isOk, Except.toBool] at herr
        | true => simp [hb]
      simp only [this]
      constructor
      · intro _
        exact ⟨p, List.mem_cons_self p t, hp⟩
      · intro _
        rfl
    · have hok : ¬((check_add_self_loops p.2 [p.1]).isOk = false) := by
        rw [check_isOk_false_iff]
        rintro ⟨⟨k, hk, hkne⟩, hattr⟩
        rw [List.mem_singleton] at hk
        subst hk
        exact hp ⟨hkne, hattr⟩
      have : check_add_self_loops p.2 [p.1] = .ok () := by
        unfold check_add_self_loops at hok ⊢
        cases hb : ((([p.1].any fun k => k.src != k.dst)) && convGetAddSelfLoops p.2) with
        | false => simp [hb]
        | true => rw [hb] at hok; simp [Except.isOk, Except.toBool] at hok
      simp only [this]
      rw [ih]
      constructor
      · rintro ⟨q, hq, hqp⟩
        exact ⟨q, List.mem_cons_of_mem p hq, hqp⟩
      · rintro ⟨q, hq, hqp⟩
        rcases List.mem_cons.mp hq with rfl | hq'
        · exact absurd hqp hp
        · exact ⟨q, hq', hqp⟩

/-! ### `ParameterDict` key round-trip lemmas -/

theorem replaceChar_of_not_mem {old : Char} (new : Char) {s : List Char}
    (h : old ∉ s) : replaceChar old new s = s := by
  induction s with
  | nil => rfl
  | cons c t ih =>
    simp only [List.mem_cons, not_or] at h
    simp [replaceChar, List.map_cons] at ih ⊢
    exact ⟨fun hc => absurd hc.symm h.1, ih h.2⟩

theorem replaceChar_roundtrip {s : List Char} (h : '#' ∉ s) :
    replaceChar '#' '.' (replaceChar '.' '#' s) = s := by
  induction s with
  | nil => rfl
  | cons c t ih =>
    simp only [List.mem_cons, not_or] at h
    simp only [replaceChar, List.map_cons, List.map_map] at ih ⊢
    refine congrArg₂ _ ?_ (ih h.2)
    by_cases hc : c = '.'
    · simp [hc]
    · have hch : c ≠ '#' := fun hh => h.1 hh.symm
      simp [hc, hch]

theorem hasKeySep_cons_false {c : Char} {rest : List Char}
    (h : hasKeySep (c :: rest) = false) :
    ¬(c = '_' ∧ rest.take 2 = ['_', '_']) ∧ hasKeySep rest = false := by
  simp only [hasKeySep, Bool.or_eq_false_iff, Bool.and_eq_false_iff] at h
  refine ⟨?_, h.2⟩
  rintro ⟨hc, ht⟩
  rcases h.1 with h1 | h1 <;> simp [hc, ht] at h1

theorem hasKeySep_append_sep (x y : List Char) :
    hasKeySep (x ++ '_' :: '_' :: '_' :: y) = true := by
  induction x with
  | nil => simp [hasKeySep]
  | cons c t ih => simp [hasKeySep, ih]

theorem splitKeySepAux_fire (rest acc : List Char) :
    splitKeySepAux ('_' :: '_' :: '_' :: rest) acc
      = acc.reverse :: splitKeySepAux rest [] := by
  simp [splitKeySepAux]

theorem splitKeySepAux_skip {c : Char} {rest : List Char} (acc : List Char)
    (h : ¬(c = '_' ∧ rest.take 2 = ['_', '_'])) :
    splitKeySepAux (c :: rest) acc = splitKeySepAux rest (c :: acc) := by
  by_cases hc : c = '_'
  · subst hc
    cases rest with
    | nil => simp [splitKeySepAux]
    | cons d rest' =>
      by_cases hd : d = '_'
      · subst hd
        cases rest' with
        | nil => simp [splitKeySepAux]
        | cons e rest'' =>
          have he : e ≠ '_' := by
            intro he
            exact h ⟨rfl, by simp [he]⟩
          simp [splitKeySepAux, he]
      · simp [splitKeySepAux, hd]
  · simp [splitKeySepAux, hc]

theorem splitKeySepAux_no_sep (p : List Char) :
    hasKeySep p = false → ∀ acc, splitKeySepAux p acc = [acc.reverse ++ p] := by
  induction p with
  | nil => intro _ acc; simp [splitKeySepAux]
  | cons c t ih =>
    intro hsep acc
    obtain ⟨hno, htail⟩ := hasKeySep_cons_false hsep
    rw [splitKeySepAux_skip acc hno, ih htail]
    simp

theorem splitKeySepAux_through (p : List Char) :
    hasKeySep p = false → p.getLast? ≠ some '_' →
    ∀ t acc, splitKeySepAux (p ++ '_' :: '_' :: '_' :: t) acc
      = (acc.reverse ++ p) :: splitKeySepAux t [] := by
  induction p with
  | nil => intro _ _ t acc; simp [splitKeySepAux_fire]
  | cons c p ih =>
    intro hsep hlast t acc
    obtain ⟨_, htail⟩ := hasKeySep_cons_false hsep
    have hskip : ¬(c = '_' ∧ (p ++ '_' :: '_' :: '_' :: t).take 2 = ['_', '_']) := by
      cases p with
      | nil =>
        rintro ⟨hc, -⟩
        exact hlast (by simp [hc])
      | cons d p' =>
        cases p' with
        | nil =>
          rintro ⟨hc, htake⟩
          simp at htake
          exact hlast (by rw [List.getLast?_cons_cons, htake]; rfl)
        | cons e p'' =>
          rintro ⟨hc, htake⟩
          simp at htake
          exact (hasKeySep_cons_false hsep).1 ⟨hc, by simp [htake.1, htake.2]⟩
    rw [show (c :: p) ++ '_' :: '_' :: '_' :: t = c :: (p ++ '_' :: '_' :: '_' :: t) by simp,
      splitKeySepAux_skip acc hskip]
    cases hp : p with
    | nil =>
      subst hp
      simp [splitKeySepAux_fire]
    | cons d p' =>
      subst hp
      have hlast' : (d :: p').getLast? ≠ some '_' := by
        rwa [List.getLast?_cons_cons] at hlast
      rw [ih htail hlast' t (c :: acc)]
      simp

theorem splitKeySep_joinKeySep (ts : List (List Char)) :
    ts ≠ [] →
    (∀ p ∈ ts, hasKeySep p = false ∧ p.getLast? ≠ some '_') →
    splitKeySep (joinKeySep ts) = ts := by
  induction ts with
  | nil => intro h; exact absurd rfl h
  | cons p ts ih =>
    intro _ hcomp
    cases ts with
    | nil =>
      unfold splitKeySep joinKeySep
      rw [splitKeySepAux_no_sep p (hcomp p (List.mem_singleton_self p)).1]
      simp
    | cons q ts' =>
      unfold splitKeySep joinKeySep
      obtain ⟨hps, hpl⟩ := hcomp p (List.mem_cons_self p _)
      rw [splitKeySepAux_through p hps hpl (joinKeySep (q :: ts')) []]
      have := ih (by simp) (fun r hr => hcomp r (List.mem_cons_of_mem p hr))
      unfold splitKeySep at this
      rw [this]
      simp

theorem optionBind_some {α β : Type} (a : α) (g : α → Option β) :
    (some a).bind g = g a := rfl

theorem getLast?_bracket (xs : List Char) :
    ('<' :: (xs ++ ['>'])).getLast? = some '>' := by
  rw [show '<' :: (xs ++ ['>']) = ('<' :: xs) ++ ['>'] by simp]
  exact List.getLast?_concat _

theorem pyStrip_bracket (xs : List Char) :
    pyStrip ('<' :: (xs ++ ['>'])) = xs := by
  simp [pyStrip, List.dropLast_concat]

theorem not_mem_bracket {ch : Char} {xs : List Char} (h1 : ch ≠ '<')
    (h2 : ch ≠ '>') (h3 : ch ∉ xs) : ch ∉ '<' :: (xs ++ ['>']) := by
  intro hmem
  rcases List.mem_cons.mp hmem with h | h
  · exact h1 h
  · rcases List.mem_append.mp h with h | h
    · exact h3 h
    · exact h2 (List.mem_singleton.mp h)

theorem mem_joinKeySep {c : Char} :
    ∀ {ts : List (List Char)}, c ∈ joinKeySep ts → c = '_' ∨ ∃ t ∈ ts, c ∈ t := by
  intro ts
  induction ts with
  | nil => intro h; simp [joinKeySep] at h
  | cons p ps ih =>
    intro h
    cases ps with
    | nil =>
      right
      exact ⟨p, List.mem_singleton_self p, h⟩
    | cons q ps' =>
      rw [show joinKeySep (p :: q :: ps') = p ++ '_' :: '_' :: '_' :: joinKeySep (q :: ps')
        from rfl] at h
      rcases List.mem_append.mp h with hp | hrest
      · right
        exact ⟨p, List.mem_cons_self p _, hp⟩
      · simp only [List.mem_cons] at hrest
        rcases hrest with h1 | h1 | h1 | h1
        · left; exact h1
        · left; exact h1
        · left; exact h1
        · rcases ih h1 with h3 | ⟨t, ht, hct⟩
          · left; exact h3
          · right; exact ⟨t, List.mem_cons_of_mem p ht, hct⟩

theorem externalStrip_eval (attrs : List (List Char)) {k1 : List Char}
    {c z : Char} (hh : k1.head? = some c) (hl : k1.getLast? = some z) :
    externalStrip attrs k1
      = some (if c = '<' ∧ z = '>' ∧ pyStrip k1 ∈ attrs then pyStrip k1 else k1) := by
  unfold externalStrip
  rw [hh, hl]
  rfl

theorem externalSplit_eval {k2 : List Char} {c z : Char}
    (hh : k2.head? = some c) (hl : k2.getLast? = some z) :
    externalSplit k2
      = if c = '<' ∧ z = '>' ∧ hasKeySep k2 then
          some (.tup (splitKeySep (pyStrip k2)))
        else some (.str k2) := by
  unfold externalSplit
  rw [hh, hl]
  rfl

/-- C9 (amended): `to_external_key ∘ to_internal_key` is the identity on
every nonempty string key that contains no `#` and does not both start with
`<` and end with `>`, and on every tuple key of length at least 2 whose
components contain no `.`, `#` or `___` and do not end in `_` — for any
attribute set consisting of identifier-like names. -/
theorem parameter_dict_key_roundtrip (attrs : List (List Char))
    (hattrs : GoodAttrs attrs) (k : PDKey) (hk : GoodKey k) :
    pdRoundTrip attrs k = some k := by
  cases k with
  | str s =>
    obtain ⟨hne, hhash, hblt⟩ := hk
    obtain ⟨c, s', rfl⟩ : ∃ c s', s = c :: s' := by
      cases s with
      | nil => exact absurd rfl hne
      | cons c s' => exact ⟨c, s', rfl⟩
    obtain ⟨z, hz⟩ : ∃ z, (c :: s').getLast? = some z := by
      cases hzz : (c :: s').getLast? with
      | none => simp at hzz
      | some z => exact ⟨z, rfl⟩
    have hint : to_internal_key attrs (.str (c :: s'))
        = some (internalWrap attrs (c :: s')) := rfl
    by_cases hmem : (c :: s') ∈ attrs
    · have hblk : '#' ∉ '<' :: ((c :: s') ++ ['>']) :=
        not_mem_bracket (by decide) (by decide) hhash
      have hwrap : internalWrap attrs (c :: s')
          = replaceChar '.' '#' ('<' :: ((c :: s') ++ ['>'])) := by
        unfold internalWrap
        rw [if_pos hmem]
      have hlt : '<' ∉ c :: s' := (hattrs _ hmem).2.1
      have hcne : c ≠ '<' := fun hcc => hlt (hcc ▸ List.mem_cons_self c s')
      unfold pdRoundTrip
      rw [hint, optionBind_some]
      unfold to_external_key
      rw [hwrap, replaceChar_roundtrip hblk]
      rw [externalStrip_eval attrs List.head?_cons (getLast?_bracket _)]
      rw [pyStrip_bracket]
      rw [if_pos ⟨rfl, rfl, hmem⟩, optionBind_some]
      rw [externalSplit_eval List.head?_cons hz]
      rw [if_neg (fun hand => hcne hand.1)]
    · have hwrap : internalWrap attrs (c :: s')
          = replaceChar '.' '#' (c :: s') := by
        unfold internalWrap
        rw [if_neg hmem]
      have hnand : ¬(c = '<' ∧ z = '>') := by
        rintro ⟨rfl, rfl⟩
        exact hblt ⟨by simp, hz⟩
      unfold pdRoundTrip
      rw [hint, optionBind_some]
      unfold to_external_key
      rw [hwrap, replaceChar_roundtrip hhash]
      rw [externalStrip_eval attrs List.head?_cons hz]
      rw [if_neg (fun hand => hnand ⟨hand.1, hand.2.1⟩), optionBind_some]
      rw [externalSplit_eval List.head?_cons hz]
      rw [if_neg (fun hand => hnand ⟨hand.1, hand.2.1⟩)]
  | tup ts =>
    obtain ⟨hlen, hcomp⟩ := hk
    obtain ⟨t1, t2, ts', rfl⟩ : ∃ t1 t2 ts', ts = t1 :: t2 :: ts' := by
      cases ts with
      | nil => simp at hlen
      | cons t1 ts1 =>
        cases ts1 with
        | nil => simp at hlen
        | cons t2 ts' => exact ⟨t1, t2, ts', rfl⟩
    have hjoin : joinKeySep (t1 :: t2 :: ts')
        = t1 ++ '_' :: '_' :: '_' :: joinKeySep (t2 :: ts') := rfl
    have hdotj : '.' ∉ joinKeySep (t1 :: t2 :: ts') := by
      intro hcs
      rcases mem_joinKeySep hcs with h1 | ⟨t, ht, hct⟩
      · exact absurd h1 (by decide)
      · exact (hcomp t ht).1 hct
    have hhshj : '#' ∉ joinKeySep (t1 :: t2 :: ts') := by
      intro hcs
      rcases mem_joinKeySep hcs with h1 | ⟨t, ht, hct⟩
      · exact absurd h1 (by decide)
      · exact (hcomp t ht).2.1 hct
    have hdot : '.' ∉ '<' :: (joinKeySep (t1 :: t2 :: ts') ++ ['>']) :=
      not_mem_bracket (by decide) (by decide) hdotj
    have hhsh : '#' ∉ '<' :: (joinKeySep (t1 :: t2 :: ts') ++ ['>']) :=
      not_mem_bracket (by decide) (by decide) hhshj
    have hkey1 : ('<' :: (joinKeySep (t1 :: t2 :: ts') ++ ['>'])) ∉ attrs := by
      intro hmem
      exact (hattrs _ hmem).2.1 (List.mem_cons_self _ _)
    have hraw : internalRaw (.tup (t1 :: t2 :: ts'))
        = some ('<' :: (joinKeySep (t1 :: t2 :: ts') ++ ['>'])) := by
      simp only [internalRaw]
      rw [if_neg (by simp only [List.length_cons]; omega :
        ¬(t1 :: t2 :: ts').length ≤ 1)]
    have hwrap : internalWrap attrs ('<' :: (joinKeySep (t1 :: t2 :: ts') ++ ['>']))
        = '<' :: (joinKeySep (t1 :: t2 :: ts') ++ ['>']) := by
      unfold internalWrap
      rw [if_neg hkey1, replaceChar_of_not_mem _ hdot]
    have hint : to_internal_key attrs (.tup (t1 :: t2 :: ts'))
        = some ('<' :: (joinKeySep (t1 :: t2 :: ts') ++ ['>'])) := by
      unfold to_internal_key
      rw [hraw, Option.map_some', hwrap]
    have hjsep : hasKeySep (joinKeySep (t1 :: t2 :: ts')) = true := by
      rw [hjoin]
      exact hasKeySep_append_sep _ _
    have hjattrs : joinKeySep (t1 :: t2 :: ts') ∉ attrs := by
      intro hmem
      rw [(hattrs _ hmem).2.2.2.2] at hjsep
      exact Bool.false_ne_true hjsep
    have hksep : hasKeySep ('<' :: (joinKeySep (t1 :: t2 :: ts') ++ ['>'])) = true := by
      rw [show '<' :: (joinKeySep (t1 :: t2 :: ts') ++ ['>'])
          = ('<' :: t1) ++ '_' :: '_' :: '_' :: (joinKeySep (t2 :: ts') ++ ['>']) by
        rw [hjoin]; simp]
      exact hasKeySep_append_sep _ _
    unfold pdRoundTrip
    rw [hint, optionBind_some]
    unfold to_external_key
    rw [replaceChar_of_not_mem _ hhsh]
    rw [externalStrip_eval attrs List.head?_cons (getLast?_bracket _)]
    rw [pyStrip_bracket]
    rw [if_neg (fun hand => hjattrs hand.2.2), optionBind_some]
    rw [externalSplit_eval List.head?_cons (getLast?_bracket _)]
    rw [if_pos ⟨rfl, rfl, hksep⟩]
    rw [pyStrip_bracket]
    rw [splitKeySep_joinKeySep _ (by simp)
      (fun p hp => ⟨(hcomp p hp).2.2.1, (hcomp p hp).2.2.2⟩)]

/-- C9 (counterexample to the claim as stated): the tuple key
`("a_", "b")` satisfies the stated precondition (length 2, components free
of `.`, `#`, `___`) yet does not round-trip — it comes back as
`("a", "_b")`; and the empty string key, which also satisfies the stated
precondition, makes `to_external_key` raise `IndexError` instead of
returning it. -/
theorem parameter_dict_key_roundtrip_cex :
    (2 ≤ [['a', '_'], ['b']].length ∧
     (∀ t ∈ [['a', '_'], ['b']], '.' ∉ t ∧ '#' ∉ t ∧ hasKeySep t = false) ∧
     pdRoundTrip layerDictAttrs (PDKey.tup [['a', '_'], ['b']])
       = some (PDKey.tup [['a'], ['_', 'b']]) ∧
     pdRoundTrip layerDictAttrs (PDKey.tup [['a', '_'], ['b']])
       ≠ some (PDKey.tup [['a', '_'], ['b']])) ∧
    pdRoundTrip layerDictAttrs (PDKey.str []) = none := by
  refine ⟨⟨by decide, by decide, by decide, by decide⟩, by decide⟩

/-- C9 (witness): the amended round-trip theorem applied to the concrete
attribute set and the tuple key `("ab", "c")`. -/
theorem parameter_dict_key_roundtrip_witness :
    pdRoundTrip layerDictAttrs (PDKey.tup [['a', 'b'], ['c']])
      = some (PDKey.tup [['a', 'b'], ['c']]) :=
  parameter_dict_key_roundtrip layerDictAttrs (by decide) _ (by decide)

/-! ### CSC conversion lemmas -/

theorem zip_range_elem {col : List Nat} {q : Nat × Nat}
    (h : q ∈ col.zip (List.range col.length)) :
    q.1 = col.getD q.2 0 ∧ q.2 < col.length := by
  obtain ⟨i, hi, hq⟩ := List.getElem_of_mem h
  have hic : i < col.length := by simpa using hi
  rw [List.getElem_zip, List.getElem_range] at hq
  cases hq
  exact ⟨(List.getD_eq_getElem col 0 hic).symm, hic⟩

theorem zip_range_eq_map (col : List Nat) :
    col.zip (List.range col.length)
      = (List.range col.length).map (fun e => (col.getD e 0, e)) := by
  apply List.ext_getElem
  · simp
  · intro i h1 h2
    have hic : i < col.length := by simpa using h1
    rw [List.getElem_zip, List.getElem_range, List.getElem_map, List.getElem_range,
      List.getD_eq_getElem col 0 hic]

theorem filter_map_swap {α β : Type} (f : α → β) (p : β → Bool) :
    ∀ (l : List α), (l.map f).filter p = (l.filter (fun a => p (f a))).map f := by
  intro l
  induction l with
  | nil => rfl
  | cons a t ih =>
    simp only [List.map_cons, List.filter_cons]
    by_cases hp : p (f a)
    · simp [hp, ih]
    · simp [hp, ih]

theorem countP_lt_succ (j : Nat) (l : List Nat) :
    l.countP (fun c => decide (c < j + 1))
      = l.countP (fun c => decide (c < j)) + l.countP (fun c => decide (c = j)) := by
  induction l with
  | nil => rfl
  | cons a t ih =>
    simp only [List.countP_cons, ih]
    by_cases h1 : a < j + 1 <;> by_cases h2 : a < j <;> by_cases h3 : a = j <;>
      simp [h1, h2, h3] <;> omega

theorem sorted_partition {α : Type} (key : α → Nat) (j : Nat) :
    ∀ (s : List α), s.Pairwise (fun a b => key a ≤ key b) →
      s = s.filter (fun a => decide (key a < j))
          ++ s.filter (fun a => decide (key a = j))
          ++ s.filter (fun a => decide (j < key a)) := by
  intro s
  induction s with
  | nil => intro _; rfl
  | cons a t ih =>
    intro hp
    rw [List.pairwise_cons] at hp
    obtain ⟨ha, ht⟩ := hp
    have ihe := ih ht
    simp only [List.filter_cons]
    rcases Nat.lt_trichotomy (key a) j with h | h | h
    · have c1 : decide (key a < j) = true := by simp [h]
      have c2 : decide (key a = j) = false := by simp [Nat.ne_of_lt h]
      have c3 : decide (j < key a) = false := by simp; omega
      rw [c1, c2, c3]
      simp only [if_true, if_false, Bool.false_eq_true]
      conv_lhs => rw [ihe]
      simp
    · have c1 : decide (key a < j) = false := by simp; omega
      have c2 : decide (key a = j) = true := by simp [h]
      have c3 : decide (j < key a) = false := by simp; omega
      rw [c1, c2, c3]
      simp only [if_true, if_false, Bool.false_eq_true]
      have hnil : t.filter (fun b => decide (key b < j)) = [] := by
        rw [List.filter_eq_nil_iff]
        intro b hb
        have := ha b hb
        simp
        omega
      conv_lhs => rw [ihe]
      rw [hnil]
      simp
    · have c1 : decide (key a < j) = false := by simp; omega
      have c2 : decide (key a = j) = false := by simp; omega
      have c3 : decide (j < key a) = true := by simp [h]
      rw [c1, c2, c3]
      simp only [if_true, if_false, Bool.false_eq_true]
      have hnil1 : t.filter (fun b => decide (key b < j)) = [] := by
        rw [List.filter_eq_nil_iff]
        intro b hb
        have := ha b hb
        simp
        omega
      have hnil2 : t.filter (fun b => decide (key b = j)) = [] := by
        rw [List.filter_eq_nil_iff]
        intro b hb
        have := ha b hb
        simp
        omega
      conv_lhs => rw [ihe]
      rw [hnil1, hnil2]
      simp

theorem getD_map_range (f : Nat → Nat) (n j : Nat) (h : j < n + 1) :
    ((List.range (n + 1)).map f).getD j 0 = f j := by
  rw [List.getD_eq_getElem _ 0 (by simpa using h)]
  rw [List.getElem_map, List.getElem_range]

/-- C2: `to_csc` converts an edge list to CSC format: `perm` is a
permutation of `{0..E-1}` with `col[perm]` non-decreasing, the returned row
is `row[perm]`, and `colptr` is a non-decreasing pointer array of length
`numDst + 1` starting at `0`, ending at `E`, whose `j`-th segment of the
returned row holds exactly the sources of the edges with destination `j`. -/
theorem to_csc_spec (row col : List Nat) (numDst : Nat)
    (_hlen : row.length = col.length)
    (hcol : ∀ c ∈ col, c < numDst) :
    (to_csc row col numDst).2.2.Perm (List.range col.length) ∧
    List.Sorted (· ≤ ·) ((to_csc row col numDst).2.2.map fun i => col.getD i 0) ∧
    (to_csc row col numDst).2.1
      = (to_csc row col numDst).2.2.map (fun i => row.getD i 0) ∧
    (to_csc row col numDst).1.length = numDst + 1 ∧
    List.Sorted (· ≤ ·) (to_csc row col numDst).1 ∧
    (to_csc row col numDst).1.head? = some 0 ∧
    (to_csc row col numDst).1.getLast? = some col.length ∧
    ∀ j < numDst,
      ((((to_csc row col numDst).2.1.drop ((to_csc row col numDst).1.getD j 0)).take
          ((to_csc row col numDst).1.getD (j + 1) 0
            - (to_csc row col numDst).1.getD j 0)).Perm
        (((List.range col.length).filter fun e => col.getD e 0 = j).map
          fun e => row.getD e 0)) := by
  set pairs := List.insertionSort leFst (col.zip (List.range col.length)) with hpairs
  have hperm : pairs.Perm (col.zip (List.range col.length)) :=
    List.perm_insertionSort _ _
  have hsorted : List.Sorted leFst pairs := List.sorted_insertionSort _ _
  have hmem : ∀ q ∈ pairs, q.1 = col.getD q.2 0 ∧ q.2 < col.length :=
    fun q hq => zip_range_elem (hperm.mem_iff.mp hq)
  have h22 : (to_csc row col numDst).2.2 = pairs.map Prod.snd := rfl
  have h21 : (to_csc row col numDst).2.1
      = (pairs.map Prod.snd).map (fun i => row.getD i 0) := rfl
  have h1c : (to_csc row col numDst).1 = index2ptr (pairs.map Prod.fst) numDst := rfl
  rw [h22, h21, h1c]
  refine ⟨?_, ?_, rfl, ?_, ?_, ?_, ?_, ?_⟩
  · have h1 := hperm.map Prod.snd
    rwa [List.map_snd_zip _ _ (by simp)] at h1
  · rw [List.map_map]
    have hmapeq : pairs.map ((fun i => col.getD i 0) ∘ Prod.snd)
        = pairs.map Prod.fst :=
      List.map_congr_left (fun q hq => ((hmem q hq).1).symm)
    rw [hmapeq]
    exact List.Pairwise.map Prod.fst (fun _ _ h => h) hsorted
  · simp [index2ptr]
  · unfold index2ptr
    refine List.Pairwise.map _ ?_ (List.pairwise_lt_range _)
    intro a b hab
    refine List.countP_mono_left ?_
    intro c _ hc
    simp only [decide_eq_true_eq] at hc ⊢
    omega
  · unfold index2ptr
    rw [List.range_succ_eq_map, List.map_cons, List.head?_cons]
    congr 1
    rw [List.countP_eq_zero]
    intro a _
    simp
  · unfold index2ptr
    rw [List.range_succ, List.map_append, List.map_singleton,
      List.getLast?_concat]
    congr 1
    have hlenp : (pairs.map Prod.fst).length = col.length := by
      simp [hperm.length_eq]
    rw [← hlenp]
    rw [List.countP_eq_length]
    intro a ha
    obtain ⟨q, hq, rfl⟩ := List.mem_map.mp ha
    obtain ⟨h1, h2⟩ := hmem q hq
    have hqc : q.1 ∈ col := by
      rw [h1, List.getD_eq_getElem col 0 h2]
      exact List.getElem_mem _
    simp [hcol _ hqc]
  · intro j hj
    have hptrj : (index2ptr (pairs.map Prod.fst) numDst).getD j 0
        = (pairs.map Prod.fst).countP (fun c => decide (c < j)) :=
      getD_map_range _ _ _ (by omega)
    have hptrj1 : (index2ptr (pairs.map Prod.fst) numDst).getD (j + 1) 0
        = (pairs.map Prod.fst).countP (fun c => decide (c < j + 1)) :=
      getD_map_range _ _ _ (by omega)
    rw [hptrj, hptrj1, List.map_map, countP_lt_succ j (pairs.map Prod.fst)]
    simp only [List.countP_map]
    have hpart := sorted_partition Prod.fst j pairs hsorted
    have hcount1 : pairs.countP ((fun c => decide (c < j)) ∘ Prod.fst)
        = (pairs.filter (fun q => decide (q.1 < j))).length := by
      rw [List.countP_eq_length_filter]
      rfl
    have hcount2 : pairs.countP ((fun c => decide (c = j)) ∘ Prod.fst)
        = (pairs.filter (fun q => decide (q.1 = j))).length := by
      rw [List.countP_eq_length_filter]
      rfl
    rw [hcount1, hcount2]
    have harith : (pairs.filter (fun q => decide (q.1 < j))).length
          + (pairs.filter (fun q => decide (q.1 = j))).length
          - (pairs.filter (fun q => decide (q.1 < j))).length
        = (pairs.filter (fun q => decide (q.1 = j))).length := by omega
    rw [harith]
    set g : Nat × Nat → Nat := (fun i => row.getD i 0) ∘ Prod.snd with hg
    have hsplit : pairs.map g
        = (pairs.filter (fun q => decide (q.1 < j))).map g
          ++ ((pairs.filter (fun q => decide (q.1 = j))).map g
            ++ (pairs.filter (fun q => decide (j < q.1))).map g) := by
      conv_lhs => rw [hpart]
      rw [List.map_append, List.map_append, List.append_assoc]
    rw [hsplit]
    rw [show (pairs.filter (fun q => decide (q.1 < j))).length
        = ((pairs.filter (fun q => decide (q.1 < j))).map g).length by simp]
    rw [List.drop_left]
    rw [show (pairs.filter (fun q => decide (q.1 = j))).length
        = ((pairs.filter (fun q => decide (q.1 = j))).map g).length by simp]
    rw [List.take_left]
    have hpf : (pairs.filter (fun q => decide (q.1 = j))).Perm
        ((col.zip (List.range col.length)).filter (fun q => decide (q.1 = j))) :=
      hperm.filter _
    refine (hpf.map g).trans ?_
    rw [zip_range_eq_map, filter_map_swap, List.map_map]
    rfl

/-- C2 (witness): `to_csc` applied to the concrete edge list
`row = [5, 7, 9]`, `col = [1, 0, 1]` with 2 destination nodes. -/
theorem to_csc_spec_witness :
    (to_csc [5, 7, 9] [1, 0, 1] 2).1.getLast? = some 3 :=
  (to_csc_spec [5, 7, 9] [1, 0, 1] 2 rfl (by decide)).2.2.2.2.2.2.1

/-! ### `construct_bipartite_edge_index` lemmas -/

theorem seqBind_some {α β : Type} (a : α) (g : α → Option β) :
    ((some a : Option α) >>= g) = g a := rfl

theorem shiftedEI_lookups {eid : List (EdgeType × DenseEI)}
    {dst : List (NodeType × Int)} {p : EdgeType × Int}
    (h : (shiftedEI eid dst p).isSome = true) :
    ∃ ei dstOff, eid.lookup p.1 = some ei ∧ dst.lookup p.1.dst = some dstOff ∧
      shiftedEI eid dst p = some (ei.1.map (· + p.2), ei.2.map (· + dstOff)) := by
  cases hei : eid.lookup p.1 with
  | none => rw [shiftedEI, hei] at h; simp at h
  | some ei =>
    cases hdst : dst.lookup p.1.dst with
    | none => rw [shiftedEI, hei] at h; simp [hdst] at h
    | some dstOff =>
      exact ⟨ei, dstOff, rfl, rfl, by rw [shiftedEI, hei]; simp [hdst]⟩

theorem cbei_fold_none (eid : List (EdgeType × DenseEI))
    (dst : List (NodeType × Int)) :
    ∀ (l : List (EdgeType × Int)) (acc1 : List DenseEI)
      (acc2 : List (List (List Int))),
    (∀ p ∈ l, (shiftedEI eid dst p).isSome = true) →
    l.foldlM (cbeiStep eid dst none) (acc1, acc2)
      = some (acc1 ++ l.filterMap (shiftedEI eid dst), acc2) := by
  intro l
  induction l with
  | nil => intro acc1 acc2 _; simp
  | cons q t ih =>
    intro acc1 acc2 hok
    obtain ⟨ei, dstOff, hei, hdst, hval⟩ :=
      shiftedEI_lookups (hok q (List.mem_cons_self q t))
    have hstep : cbeiStep eid dst none (acc1, acc2) q
        = some (acc1 ++ [(ei.1.map (· + q.2), ei.2.map (· + dstOff))], acc2) := by
      rw [cbeiStep, hei]
      simp [hdst]
    rw [List.foldlM_cons, hstep, seqBind_some,
      ih _ _ (fun p hp => hok p (List.mem_cons_of_mem q hp)),
      List.filterMap_cons, hval]
    simp

theorem cbei_fold_some (eid : List (EdgeType × DenseEI))
    (dst : List (NodeType × Int)) (d : List (EdgeType × List (List Int))) :
    ∀ (l : List (EdgeType × Int)) (acc1 : List DenseEI)
      (acc2 : List (List (List Int))),
    (∀ p ∈ l, (shiftedEI eid dst p).isSome = true) →
    (∀ p ∈ l, (attrFor d eid p).isSome = true) →
    l.foldlM (cbeiStep eid dst (some d)) (acc1, acc2)
      = some (acc1 ++ l.filterMap (shiftedEI eid dst),
              acc2 ++ l.filterMap (attrFor d eid)) := by
  intro l
  induction l with
  | nil => intro acc1 acc2 _ _; simp
  | cons q t ih =>
    intro acc1 acc2 hok hattr
    obtain ⟨ei, dstOff, hei, hdst, hval⟩ :=
      shiftedEI_lookups (hok q (List.mem_cons_self q t))
    have hq := hattr q (List.mem_cons_self q t)
    obtain ⟨v, hv⟩ : ∃ v, d.lookup q.1 = some v := by
      cases hv : d.lookup q.1 with
      | none => rw [attrFor, hei, hv] at hq; simp at hq
      | some v => exact ⟨v, rfl⟩
    obtain ⟨v2, hv2⟩ : ∃ v2, attrStep v ei.1.length = some v2 := by
      cases hv2 : attrStep v ei.1.length with
      | none => rw [attrFor, hei] at hq; simp [hv, hv2] at hq
      | some v2 => exact ⟨v2, rfl⟩
    have hstep : cbeiStep eid dst (some d) (acc1, acc2) q
        = some (acc1 ++ [(ei.1.map (· + q.2), ei.2.map (· + dstOff))],
                acc2 ++ [v2]) := by
      rw [cbeiStep, hei]
      simp [hdst, hv, hv2]
    have hafq : attrFor d eid q = some v2 := by
      rw [attrFor, hei]
      simp [hv, hv2]

    rw [List.foldlM_cons, hstep, seqBind_some,
      ih _ _ (fun p hp => hok p (List.mem_cons_of_mem q hp))
        (fun p hp => hattr p (List.mem_cons_of_mem q hp)),
      List.filterMap_cons, List.filterMap_cons, hval, hafq]
    simp

/-- C3: `construct_bipartite_edge_index` returns the column-wise
concatenation, over `src_offset_dict` iteration order, of each type's edge
index shifted by its source and destination offsets, and the row-wise
concatenation of the (expanded) per-type attribute rows. -/
theorem construct_bipartite_edge_index_spec
    (srcOffsets : List (EdgeType × Int))
    (edgeIndexDict : List (EdgeType × DenseEI))
    (dstOffsets : List (NodeType × Int))
    (edgeAttrDict : Option (List (EdgeType × List (List Int))))
    (hne : srcOffsets ≠ [])
    (hok : ∀ p ∈ srcOffsets, (shiftedEI edgeIndexDict dstOffsets p).isSome = true)
    (hattr : ∀ d, edgeAttrDict = some d →
      ∀ p ∈ srcOffsets, (attrFor d edgeIndexDict p).isSome = true) :
    construct_bipartite_edge_index srcOffsets edgeIndexDict dstOffsets edgeAttrDict
      = some
        ((((srcOffsets.filterMap (shiftedEI edgeIndexDict dstOffsets)).map
              Prod.fst).flatten,
          ((srcOffsets.filterMap (shiftedEI edgeIndexDict dstOffsets)).map
              Prod.snd).flatten),
         edgeAttrDict.map
           (fun d => (srcOffsets.filterMap (attrFor d edgeIndexDict)).flatten)) := by
  have hfne : (srcOffsets.filterMap (shiftedEI edgeIndexDict dstOffsets)).isEmpty
      = false := by
    cases hs : srcOffsets with
    | nil => exact absurd hs hne
    | cons q t =>
      obtain ⟨ei, dstOff, hei, hdst, hval⟩ :=
        shiftedEI_lookups (hok q (hs ▸ List.mem_cons_self q t))
      rw [List.filterMap_cons, hval]
      rfl
  cases hd : edgeAttrDict with
  | none =>
    rw [construct_bipartite_edge_index,
      cbei_fold_none edgeIndexDict dstOffsets srcOffsets [] [] hok,
      seqBind_some]
    simp only [List.nil_append, hfne, Bool.false_eq_true, if_false]
    rfl
  | some d =>
    rw [construct_bipartite_edge_index,
      cbei_fold_some edgeIndexDict dstOffsets d srcOffsets [] [] hok
        (hattr d hd),
      seqBind_some]
    simp only [List.nil_append, hfne, Bool.false_eq_true, if_false]
    rfl

/-- C3 (witness): one bipartite edge type with offsets 10 (source) and 20
(destination) and a broadcast `[1, F]` attribute. -/
theorem construct_bipartite_edge_index_witness :
    construct_bipartite_edge_index
      [(⟨"a", "r", "b"⟩, (10 : Int))]
      [(⟨"a", "r", "b"⟩, (([0, 1] : List Int), ([1, 0] : List Int)))]
      [("b", (20 : Int))]
      (some [(⟨"a", "r", "b"⟩, [[7, 8]])])
      = some ((([10, 11], [21, 20]),
          some [[7, 8], [7, 8]])) := by
  rw [construct_bipartite_edge_index_spec _ _ _ _ (by simp)
    (by decide) (by decide)]
  rfl

/-! ### Frame property of `construct_bipartite_edge_index` -/

theorem clone_set_preserves (l : Store) (a b : PVal) :
    l.length ≤ ((l ++ [a]).set l.length b).length ∧
    ∀ i, i < l.length → ((l ++ [a]).set l.length b)[i]? = l[i]? := by
  constructor
  · simp
  · intro i hi
    rw [List.getElem?_set_ne (by omega)]
    exact List.getElem?_append_left hi

theorem cbeiStoreStep_frame {eir : List (EdgeType × Nat)}
    {dst : List (NodeType × Int)} {ear : Option (List (EdgeType × Nat))}
    {acc acc' : Store × List Nat × List (List (List Int))} {p : EdgeType × Int}
    (h : cbeiStoreStep eir dst ear acc p = some acc') :
    acc.1.length ≤ acc'.1.length ∧
    ∀ i, i < acc.1.length → acc'.1[i]? = acc.1[i]? := by
  rw [cbeiStoreStep] at h
  cases hr : eir.lookup p.1 with
  | none => rw [hr] at h; simp at h
  | some ref =>
    rw [hr, seqBind_some] at h
    cases ht : storeGetEI acc.1 ref with
    | none => rw [ht] at h; simp at h
    | some t =>
      rw [ht, seqBind_some] at h
      cases hd : dst.lookup p.1.dst with
      | none => rw [hd] at h; simp at h
      | some dstOff =>
        rw [hd, seqBind_some] at h
        cases ear with
        | none =>
          simp only [] at h
          have h1 : acc'.1 = (acc.1 ++ [PVal.ei t]).set acc.1.length
              (PVal.ei (t.1.map (· + p.2), t.2.map (· + dstOff))) := by
            cases h
            rfl
          rw [h1]
          exact clone_set_preserves _ _ _
        | some dr =>
          simp only [] at h
          cases ha : dr.lookup p.1 with
          | none => rw [ha] at h; simp at h
          | some aref =>
            rw [ha, seqBind_some] at h
            cases hv : storeGetMat ((acc.1 ++ [PVal.ei t]).set acc.1.length
                (PVal.ei (t.1.map (· + p.2), t.2.map (· + dstOff)))) aref with
            | none => rw [hv] at h; simp at h
            | some v =>
              rw [hv, seqBind_some] at h
              cases hv2 : attrStep v ((t.1.map (· + p.2) : List Int)).length with
              | none => rw [hv2] at h; simp at h
              | some v2 =>
                rw [hv2, seqBind_some] at h
                have h1 : acc'.1 = (acc.1 ++ [PVal.ei t]).set acc.1.length
                    (PVal.ei (t.1.map (· + p.2), t.2.map (· + dstOff))) := by
                  cases h
                  rfl
                rw [h1]
                exact clone_set_preserves _ _ _

theorem cbs_fold_frame (eir : List (EdgeType × Nat))
    (dst : List (NodeType × Int)) (ear : Option (List (EdgeType × Nat))) :
    ∀ (l : List (EdgeType × Int))
      (acc acc' : Store × List Nat × List (List (List Int))),
    l.foldlM (cbeiStoreStep eir dst ear) acc = some acc' →
    acc.1.length ≤ acc'.1.length ∧
    ∀ i, i < acc.1.length → acc'.1[i]? = acc.1[i]? := by
  intro l
  induction l with
  | nil =>
    intro acc acc' h
    simp only [List.foldlM_nil] at h
    cases h
    exact ⟨Nat.le_refl _, fun i _ => rfl⟩
  | cons q t ih =>
    intro acc acc' h
    rw [List.foldlM_cons] at h
    cases hs : cbeiStoreStep eir dst ear acc q with
    | none => rw [hs] at h; simp at h
    | some a1 =>
      rw [hs, seqBind_some] at h
      obtain ⟨hl1, hp1⟩ := cbeiStoreStep_frame hs
      obtain ⟨hl2, hp2⟩ := ih a1 acc' h
      refine ⟨Nat.le_trans hl1 hl2, fun i hi => ?_⟩
      rw [hp2 i (Nat.lt_of_lt_of_le hi hl1), hp1 i hi]

/-- C10: `construct_bipartite_edge_index` does not mutate its inputs: under
the store semantics every cell of the initial store — in particular every
tensor referenced by `edge_index_dict` or `edge_attr_dict` — holds the same
value after the loop as before, because the offset additions are applied to
a freshly cloned cell. -/
theorem construct_bipartite_store_frame (srcOffsets : List (EdgeType × Int))
    (eir : List (EdgeType × Nat)) (dst : List (NodeType × Int))
    (ear : Option (List (EdgeType × Nat))) (store : Store)
    (out : Store × List Nat × List (List (List Int)))
    (h : construct_bipartite_store srcOffsets eir dst ear store = some out) :
    ∀ i, i < store.length → out.1[i]? = store[i]? :=
  fun i hi =>
    (cbs_fold_frame eir dst ear srcOffsets (store, [], []) out h).2 i hi

/-- C10 (witness): one bipartite edge type shifted by offsets `(1, 2)` with
an attribute reference; both initial cells are untouched. -/
theorem construct_bipartite_store_frame_witness :
    ([PVal.ei ([0], [0]), PVal.mat [[5]],
        PVal.ei ([1], [2])] : Store)[0]?
      = ([PVal.ei ([0], [0]), PVal.mat [[5]]] : Store)[0]? ∧
    ([PVal.ei ([0], [0]), PVal.mat [[5]],
        PVal.ei ([1], [2])] : Store)[1]?
      = ([PVal.ei ([0], [0]), PVal.mat [[5]]] : Store)[1]? :=
  ⟨construct_bipartite_store_frame
    [(⟨"a", "r", "b"⟩, (1 : Int))] [(⟨"a", "r", "b"⟩, 0)] [("b", (2 : Int))]
    (some [(⟨"a", "r", "b"⟩, 1)]) [PVal.ei ([0], [0]), PVal.mat [[5]]]
    ([PVal.ei ([0], [0]), PVal.mat [[5]], PVal.ei ([1], [2])], [2], [[[5]]])
    (by decide) 0 (by decide),
   construct_bipartite_store_frame
    [(⟨"a", "r", "b"⟩, (1 : Int))] [(⟨"a", "r", "b"⟩, 0)] [("b", (2 : Int))]
    (some [(⟨"a", "r", "b"⟩, 1)]) [PVal.ei ([0], [0]), PVal.mat [[5]]]
    ([PVal.ei ([0], [0]), PVal.mat [[5]], PVal.ei ([1], [2])], [2], [[[5]]])
    (by decide) 1 (by decide)⟩

/-! ### `HeteroConv.forward` lemmas -/

theorem exceptBind_ok {ε α β : Type} (a : α) (g : α → Except ε β) :
    ((Except.ok a : Except ε α) >>= g) = g a := rfl

theorem optAppend_nil {T : Type} (x : Option (List T)) : optAppend x [] = x := by
  cases x <;> simp [optAppend]

theorem optAppend_push {T : Type} (x : Option (List T)) (y : T) (ys : List T) :
    optAppend
      (match x with
       | none => some [y]
       | some xs => some (xs ++ [y])) ys
      = optAppend x (y :: ys) := by
  cases x with
  | none =>
    cases ys <;> simp [optAppend]
  | some xs =>
    cases ys <;> simp [optAppend]

theorem group_eq_none_iff {T : Type} (ops : PaddleOps T) (xs : List T)
    (aggr : Option String) : group ops xs aggr = none ↔ xs = [] := by
  cases xs with
  | nil => cases aggr <;> simp [group]
  | cons x t =>
    cases aggr with
    | none => simp [group]
    | some a =>
      cases t with
      | nil => simp [group]
      | cons y u => by_cases hc : a = "cat" <;> simp [group, hc]

theorem buildKwargs_fold {V : Type} (et : EdgeType) :
    ∀ (l : List (List Char × ArgDict V)) (acc : List (List Char × HArg V)),
    (∀ p ∈ l, nameHasDictSuffix p.1 = true) →
    l.foldlM
      (fun acc p =>
        if nameHasDictSuffix p.1 then
          match pickArg et p.2 with
          | some a => .ok (acc ++ [(nameDropDictSuffix p.1, a)])
          | none => .ok acc
        else .error "ValueError: kwargs")
      acc
      = Except.ok (acc ++ kwargsFor et l) := by
  intro l
  induction l with
  | nil =>
    intro acc _
    simp only [List.foldlM_nil, kwargsFor, List.filterMap_nil, List.append_nil]
    rfl
  | cons p t ih =>
    intro acc hnames
    have hp := hnames p (List.mem_cons_self p t)
    rw [List.foldlM_cons]
    cases hpick : pickArg et p.2 with
    | none =>
      simp only [hp, if_true, hpick]
      rw [exceptBind_ok, ih acc (fun q hq => hnames q (List.mem_cons_of_mem p hq))]
      simp [kwargsFor, List.filterMap_cons, hpick]
    | some a =>
      simp only [hp, if_true, hpick]
      rw [exceptBind_ok,
        ih _ (fun q hq => hnames q (List.mem_cons_of_mem p hq))]
      simp [kwargsFor, List.filterMap_cons, hpick]

theorem buildKwargs_ok {V : Type} (et : EdgeType)
    (kwargsDicts : List (List Char × ArgDict V))
    (hnames : ∀ p ∈ kwargsDicts, nameHasDictSuffix p.1 = true) :
    buildKwargs et kwargsDicts = .ok (kwargsFor et kwargsDicts) := by
  rw [buildKwargs, buildKwargs_fold et kwargsDicts [] hnames]
  rfl

theorem lookup_head_eq {β : Type} (a : NodeType) (b : β)
    (t : List (NodeType × β)) : List.lookup a ((a, b) :: t) = some b := by
  simp [List.lookup]

theorem lookup_head_ne {β : Type} {a c : NodeType} (b : β)
    (t : List (NodeType × β)) (h : a ≠ c) :
    List.lookup a ((c, b) :: t) = List.lookup a t := by
  have hb : (a == c) = false := beq_eq_false_iff_ne.mpr h
  simp [List.lookup, hb]

theorem lookup_map_update_at {T : Type} (dkey : NodeType) (f : List T → List T) :
    ∀ (od : List (NodeType × List T)),
    (od.map (fun q => if q.1 = dkey then (q.1, f q.2) else q)).lookup dkey
      = (od.lookup dkey).map f := by
  intro od
  induction od with
  | nil => simp
  | cons q t ih =>
    obtain ⟨k0, v0⟩ := q
    simp only [List.map_cons]
    by_cases hq : k0 = dkey
    · subst hq
      rw [if_pos rfl, lookup_head_eq, lookup_head_eq]
      rfl
    · rw [if_neg (by simpa using hq), lookup_head_ne _ _ (fun h => hq h.symm),
        lookup_head_ne _ _ (fun h => hq h.symm), ih]

theorem lookup_map_update_ne {T : Type} (dkey : NodeType) (f : List T → List T)
    {dstT : NodeType} (hne : dstT ≠ dkey) :
    ∀ (od : List (NodeType × List T)),
    (od.map (fun q => if q.1 = dkey then (q.1, f q.2) else q)).lookup dstT
      = od.lookup dstT := by
  intro od
  induction od with
  | nil => simp
  | cons q t ih =>
    obtain ⟨k0, v0⟩ := q
    simp only [List.map_cons]
    by_cases hq : k0 = dkey
    · subst hq
      rw [if_pos rfl, lookup_head_ne _ _ hne, lookup_head_ne _ _ hne, ih]
    · rw [if_neg (by simpa using hq)]
      by_cases he : dstT = k0
      · subst he
        rw [lookup_head_eq, lookup_head_eq]
      · rw [lookup_head_ne _ _ he, lookup_head_ne _ _ he, ih]

theorem lookup_append_single_at {T : Type} (dkey : NodeType) (v : List T) :
    ∀ (od : List (NodeType × List T)), od.lookup dkey = none →
    (od ++ [(dkey, v)]).lookup dkey = some v := by
  intro od
  induction od with
  | nil => intro _; exact lookup_head_eq _ _ _
  | cons q t ih =>
    obtain ⟨k0, v0⟩ := q
    intro hnone
    by_cases hq : dkey = k0
    · subst hq
      rw [lookup_head_eq] at hnone
      cases hnone
    · rw [lookup_head_ne _ _ hq] at hnone
      simp only [List.cons_append]
      rw [lookup_head_ne _ _ hq]
      exact ih hnone

theorem lookup_append_single_ne {T : Type} (dkey : NodeType) (v : List T)
    {dstT : NodeType} (hne : dstT ≠ dkey) :
    ∀ (od : List (NodeType × List T)),
    (od ++ [(dkey, v)]).lookup dstT = od.lookup dstT := by
  intro od
  induction od with
  | nil =>
    rw [List.nil_append, lookup_head_ne _ _ hne]
  | cons q t ih =>
    obtain ⟨k0, v0⟩ := q
    simp only [List.cons_append]
    by_cases he : dstT = k0
    · subst he
      rw [lookup_head_eq, lookup_head_eq]
    · rw [lookup_head_ne _ _ he, lookup_head_ne _ _ he, ih]

theorem lookup_outDictAdd {T : Type} (od : List (NodeType × List T))
    (dkey : NodeType) (out : T) (dstT : NodeType) :
    (outDictAdd od dkey out).lookup dstT
      = if dstT = dkey then
          match od.lookup dkey with
          | none => some [out]
          | some xs => some (xs ++ [out])
        else od.lookup dstT := by
  rw [outDictAdd]
  by_cases hd : dstT = dkey
  · subst hd
    rw [if_pos rfl]
    cases hlk : od.lookup dstT with
    | none =>
      simp only [hlk, Option.isSome_none, Bool.false_eq_true, if_false]
      exact lookup_append_single_at dstT [out] od hlk
    | some xs =>
      simp only [hlk, Option.isSome_some, if_true]
      rw [lookup_map_update_at dstT (fun ys => ys ++ [out]) od, hlk]
      rfl
  · rw [if_neg hd]
    cases hlk : od.lookup dkey with
    | none =>
      simp only [hlk, Option.isSome_none, Bool.false_eq_true, if_false]
      exact lookup_append_single_ne dkey [out] hd od
    | some xs =>
      simp only [hlk, Option.isSome_some, if_true]
      exact lookup_map_update_ne dkey (fun ys => ys ++ [out]) hd od

theorem heteroStep_eval {V T : Type} (argsDicts : List (ArgDict V))
    (kwargsDicts : List (List Char × ArgDict V))
    (hnames : ∀ p ∈ kwargsDicts, nameHasDictSuffix p.1 = true)
    (od : List (NodeType × List T))
    (pc : EdgeType × (List (HArg V) → List (List Char × HArg V) → T)) :
    heteroStep argsDicts kwargsDicts od pc
      = .ok (if hasEdgeLevelArg pc.1 argsDicts kwargsDicts then
          outDictAdd od pc.1.dst
            (pc.2 (argsDicts.filterMap (pickArg pc.1)) (kwargsFor pc.1 kwargsDicts))
        else od) := by
  rw [heteroStep, buildKwargs_ok pc.1 kwargsDicts hnames, exceptBind_ok]
  by_cases h : hasEdgeLevelArg pc.1 argsDicts kwargsDicts <;> simp [h] <;> rfl

theorem mem_outDictAdd_ne_nil {T : Type} {od : List (NodeType × List T)}
    {dkey : NodeType} {out : T} (hod : ∀ q ∈ od, q.2 ≠ []) :
    ∀ q ∈ outDictAdd od dkey out, q.2 ≠ [] := by
  intro q hq
  rw [outDictAdd] at hq
  by_cases hlk : (od.lookup dkey).isSome
  · rw [if_pos hlk] at hq
    obtain ⟨q0, hq0, rfl⟩ := List.mem_map.mp hq
    by_cases h0 : q0.1 = dkey
    · simp only [h0, if_true]
      simp
    · simp only [h0, if_false, Bool.false_eq_true]
      exact hod q0 hq0
  · rw [if_neg hlk] at hq
    rcases List.mem_append.mp hq with h | h
    · exact hod q h
    · rw [List.mem_singleton] at h
      subst h
      simp

theorem hetero_fold {V T : Type} (argsDicts : List (ArgDict V))
    (kwargsDicts : List (List Char × ArgDict V))
    (hnames : ∀ p ∈ kwargsDicts, nameHasDictSuffix p.1 = true) :
    ∀ (l : List (EdgeType × (List (HArg V) → List (List Char × HArg V) → T)))
      (od : List (NodeType × List T)),
    ∃ od', l.foldlM (heteroStep argsDicts kwargsDicts) od = .ok od' ∧
      (∀ dstT, od'.lookup dstT
        = optAppend (od.lookup dstT) (outputsFor l argsDicts kwargsDicts dstT)) ∧
      ((∀ q ∈ od, q.2 ≠ []) → ∀ q ∈ od', q.2 ≠ []) := by
  intro l
  induction l with
  | nil =>
    intro od
    refine ⟨od, rfl, fun dstT => ?_, fun h => h⟩
    rw [outputsFor]
    simp only [List.filter_nil, List.map_nil]
    exact (optAppend_nil _).symm
  | cons pc t ih =>
    intro od
    rw [List.foldlM_cons, heteroStep_eval argsDicts kwargsDicts hnames od pc,
      exceptBind_ok]
    by_cases h : hasEdgeLevelArg pc.1 argsDicts kwargsDicts
    · rw [if_pos h]
      set out := pc.2 (argsDicts.filterMap (pickArg pc.1))
        (kwargsFor pc.1 kwargsDicts) with hout
      obtain ⟨od', hfold, hinv, hnn⟩ := ih (outDictAdd od pc.1.dst out)
      refine ⟨od', hfold, fun dstT => ?_, fun hod => hnn (mem_outDictAdd_ne_nil hod)⟩
      rw [hinv dstT, lookup_outDictAdd od pc.1.dst out dstT]
      by_cases hd : dstT = pc.1.dst
      · subst hd
        rw [if_pos rfl]
        have hfil : outputsFor (pc :: t) argsDicts kwargsDicts pc.1.dst
            = out :: outputsFor t argsDicts kwargsDicts pc.1.dst := by
          rw [outputsFor, outputsFor, List.filter_cons,
            if_pos (by simp [h]), List.map_cons]
        rw [hfil, optAppend_push]
      · rw [if_neg hd]
        have hfil : outputsFor (pc :: t) argsDicts kwargsDicts dstT
            = outputsFor t argsDicts kwargsDicts dstT := by
          rw [outputsFor, outputsFor, List.filter_cons,
            if_neg (by simp; intro hcon; exact absurd hcon.symm hd)]
        rw [hfil]
    · rw [if_neg h]
      obtain ⟨od', hfold, hinv, hnn⟩ := ih od
      refine ⟨od', hfold, fun dstT => ?_, hnn⟩
      rw [hinv dstT]
      have hfil : outputsFor (pc :: t) argsDicts kwargsDicts dstT
          = outputsFor t argsDicts kwargsDicts dstT := by
        rw [outputsFor, outputsFor, List.filter_cons,
          if_neg (by simp [h])]
      rw [hfil]

theorem lookup_groupMap {T : Type} (ops : PaddleOps T) (aggr : Option String) :
    ∀ (od : List (NodeType × List T)),
    (∀ q ∈ od, q.2 ≠ []) →
    ∀ dstT,
      (od.filterMap
          (fun q => (group ops q.2 aggr).map (fun t => (q.1, t)))).lookup dstT
        = (od.lookup dstT).bind (fun ys => group ops ys aggr) := by
  intro od
  induction od with
  | nil => intro _ dstT; simp
  | cons q t ih =>
    intro hnn dstT
    obtain ⟨k0, ys0⟩ := q
    have hys0 : ys0 ≠ [] := hnn (k0, ys0) (List.mem_cons_self _ _)
    obtain ⟨t0, ht0⟩ : ∃ t0, group ops ys0 aggr = some t0 := by
      cases hg : group ops ys0 aggr with
      | none => exact absurd ((group_eq_none_iff ops ys0 aggr).mp hg) hys0
      | some t0 => exact ⟨t0, rfl⟩
    rw [List.filterMap_cons]
    simp only [ht0, Option.map_some']
    by_cases he : dstT = k0
    · subst he
      rw [lookup_head_eq, lookup_head_eq]
      simp [ht0]
    · rw [lookup_head_ne _ _ he, lookup_head_ne _ _ he,
        ih (fun q hq => hnn q (List.mem_cons_of_mem _ hq)) dstT]

/-- C1: `HeteroConv.forward` performs multi-relational aggregation with
type-keyed dispatch: when every keyword name ends in `_dict` the call
succeeds; a node type is a key of the returned dictionary iff it is the
destination of a registered edge type whose conv received an edge-level
argument (otherwise that conv is skipped); and its value is `group` of the
per-edge-type outputs targeting it (`aggr = None`: stack on axis 1; a
single output: that output; `"cat"`: concatenation along the last axis;
otherwise the named elementwise reduction of the stack on axis 0). -/
theorem heteroConvForward_spec {V T : Type} (ops : PaddleOps T)
    (aggr : Option String)
    (convs : List (EdgeType × (List (HArg V) → List (List Char × HArg V) → T)))
    (argsDicts : List (ArgDict V))
    (kwargsDicts : List (List Char × ArgDict V))
    (hnames : ∀ p ∈ kwargsDicts, nameHasDictSuffix p.1 = true) :
    (heteroConvForward ops aggr convs argsDicts kwargsDicts).isOk = true ∧
    ∀ dstT : NodeType,
      heteroForwardLookup ops aggr convs argsDicts kwargsDicts dstT
        = group ops (outputsFor convs argsDicts kwargsDicts dstT) aggr ∧
      ((heteroForwardLookup ops aggr convs argsDicts kwargsDicts dstT).isSome
        ↔ ∃ pc ∈ convs, pc.1.dst = dstT ∧
            hasEdgeLevelArg pc.1 argsDicts kwargsDicts = true) := by
  obtain ⟨od', hfold, hinv, hnn⟩ := hetero_fold argsDicts kwargsDicts hnames convs []
  have hforward : heteroConvForward ops aggr convs argsDicts kwargsDicts
      = .ok (od'.filterMap
          (fun q => (group ops q.2 aggr).map (fun t => (q.1, t)))) := by
    rw [heteroConvForward, hfold, exceptBind_ok]
    rfl
  have hlk : ∀ dstT, heteroForwardLookup ops aggr convs argsDicts kwargsDicts dstT
      = group ops (outputsFor convs argsDicts kwargsDicts dstT) aggr := by
    intro dstT
    have hred : heteroForwardLookup ops aggr convs argsDicts kwargsDicts dstT
        = (od'.filterMap
            (fun q => (group ops q.2 aggr).map (fun t => (q.1, t)))).lookup dstT := by
      rw [heteroForwardLookup, hforward]
    rw [hred, lookup_groupMap ops aggr od' (hnn (by intro q hq; cases hq)) dstT,
      hinv dstT]
    cases houts : outputsFor convs argsDicts kwargsDicts dstT with
    | nil => simp [optAppend, group]
    | cons y ys => simp [optAppend]
  refine ⟨by rw [hforward]; rfl, fun dstT => ⟨hlk dstT, ?_⟩⟩
  rw [hlk dstT]
  constructor
  · intro hsome
    have hne : outputsFor convs argsDicts kwargsDicts dstT ≠ [] := by
      intro hnil
      rw [hnil] at hsome
      simp [group] at hsome
    rw [outputsFor] at hne
    have : convs.filter (fun pc =>
        pc.1.dst == dstT && hasEdgeLevelArg pc.1 argsDicts kwargsDicts) ≠ [] := by
      intro hnil
      rw [hnil] at hne
      simp at hne
    obtain ⟨pc, hpc⟩ := List.exists_mem_of_ne_nil _ this
    have hmem := List.mem_of_mem_filter hpc
    have hcond := List.of_mem_filter hpc
    rw [Bool.and_eq_true, beq_iff_eq] at hcond
    exact ⟨pc, hmem, hcond.1, hcond.2⟩
  · rintro ⟨pc, hmem, hdst, harg⟩
    rw [Option.isSome_iff_ne_none]
    intro hnone
    rw [group_eq_none_iff] at hnone
    rw [outputsFor] at hnone
    have : pc ∈ convs.filter (fun pc =>
        pc.1.dst == dstT && hasEdgeLevelArg pc.1 argsDicts kwargsDicts) :=
      List.mem_filter.mpr ⟨hmem, by simp [hdst, harg]⟩
    rw [List.map_eq_nil_iff] at hnone
    rw [hnone] at this
    cases this

/-- C1 (witness): one registered conv for the bipartite type
`("a", "r", "b")` receiving an edge-level positional argument; the call
succeeds. -/
theorem heteroConvForward_spec_witness :
    (heteroConvForward (V := Nat) (T := Nat)
      ⟨fun xs => xs.foldl (· + ·) 0, fun xs => xs.foldl (· + ·) 1,
        fun xs => xs.foldl (· + ·) 2, fun _ x => x⟩
      (some "sum")
      [(⟨"a", "r", "b"⟩, fun _ _ => 42)]
      [⟨[(⟨"a", "r", "b"⟩, 7)], []⟩]
      []).isOk = true :=
  (heteroConvForward_spec _ _ _ _ _ (by intro p hp; cases hp)).1

/-! ### `RootedSubgraph.map` lemmas -/

theorem optIndex_eq_map {α : Type} (f : Nat → Option α) (g : Nat → α) :
    ∀ (ids : List Nat), (∀ i ∈ ids, f i = some (g i)) →
    optIndex f ids = some (ids.map g) := by
  intro ids
  induction ids with
  | nil => intro _; rfl
  | cons i t ih =>
    intro h
    rw [optIndex, h i (List.mem_cons_self i t), seqBind_some,
      ih (fun j hj => h j (List.mem_cons_of_mem i hj)), seqBind_some]
    rfl

theorem mem_nPairs {n : Nat} {mask : Nat → Nat → Bool} {b v : Nat} :
    (b, v) ∈ nPairs n mask ↔ b < n ∧ v < n ∧ mask b v = true := by
  rw [nPairs, List.mem_flatMap]
  constructor
  · rintro ⟨b0, hb0, hmem⟩
    obtain ⟨v0, hv0, heq⟩ := List.mem_map.mp hmem
    obtain ⟨hvr, hmv⟩ := List.mem_filter.mp hv0
    obtain ⟨rfl, rfl⟩ := Prod.mk.injEq _ _ _ _ ▸ heq
    exact ⟨List.mem_range.mp hb0, List.mem_range.mp hvr, hmv⟩
  · rintro ⟨hb, hv, hm⟩
    exact ⟨b, List.mem_range.mpr hb,
      List.mem_map.mpr ⟨v, List.mem_filter.mpr ⟨List.mem_range.mpr hv, hm⟩, rfl⟩⟩

theorem mem_ePairs {n : Nat} {edges : List (Nat × Nat)}
    {mask : Nat → Nat → Bool} {b t : Nat} :
    (b, t) ∈ ePairs n edges mask ↔
      b < n ∧ t < edges.length ∧
      mask b (edges.getD t (0, 0)).1 = true ∧
      mask b (edges.getD t (0, 0)).2 = true := by
  rw [ePairs, List.mem_flatMap]
  constructor
  · rintro ⟨b0, hb0, hmem⟩
    obtain ⟨t0, ht0, heq⟩ := List.mem_map.mp hmem
    obtain ⟨htr, hmt⟩ := List.mem_filter.mp ht0
    obtain ⟨rfl, rfl⟩ := Prod.mk.injEq _ _ _ _ ▸ heq
    rw [Bool.and_eq_true] at hmt
    exact ⟨List.mem_range.mp hb0, List.mem_range.mp htr, hmt.1, hmt.2⟩
  · rintro ⟨hb, ht, hm1, hm2⟩
    exact ⟨b, List.mem_range.mpr hb,
      List.mem_map.mpr ⟨t, List.mem_filter.mpr
        ⟨List.mem_range.mpr ht, by rw [Bool.and_eq_true]; exact ⟨hm1, hm2⟩⟩, rfl⟩⟩

theorem scatterIndex_lt {np : List (Nat × Nat)} {q : Nat × Nat} (h : q ∈ np) :
    scatterIndex np q < np.length := by
  induction np with
  | nil => cases h
  | cons p t ih =>
    rw [scatterIndex]
    by_cases hp : p = q
    · simp [hp]
    · rw [if_neg hp]
      have : q ∈ t := by
        rcases List.mem_cons.mp h with h1 | h1
        · exact absurd h1.symm hp
        · exact h1
      simpa using ih this

theorem getD_scatterIndex {np : List (Nat × Nat)} {q : Nat × Nat} (h : q ∈ np) :
    np.getD (scatterIndex np q) (0, 0) = q := by
  induction np with
  | nil => cases h
  | cons p t ih =>
    rw [scatterIndex]
    by_cases hp : p = q
    · simp [hp]
    · rw [if_neg hp]
      have hq : q ∈ t := by
        rcases List.mem_cons.mp h with h1 | h1
        · exact absurd h1.symm hp
        · exact h1
      simpa using ih hq

theorem length_le_sum_ones : ∀ (l : List Nat), (∀ x ∈ l, 1 ≤ x) →
    l.length ≤ l.sum := by
  intro l
  induction l with
  | nil => intro _; simp
  | cons x t ih =>
    intro h
    have hx := h x (List.mem_cons_self x t)
    have ht := ih (fun y hy => h y (List.mem_cons_of_mem x hy))
    simp only [List.length_cons, List.sum_cons]
    omega

theorem nPairs_length_ge {n : Nat} {mask : Nat → Nat → Bool}
    (hrow : ∀ b < n, ∃ v, v < n ∧ mask b v = true) :
    n ≤ (nPairs n mask).length := by
  rw [nPairs, List.length_flatMap]
  have hlen : ((List.range n).map
      (fun b => (((List.range n).filter (fun v => mask b v)).map
        (fun v => (b, v))).length)).length = n := by simp
  calc n = ((List.range n).map
      (fun b => (((List.range n).filter (fun v => mask b v)).map
        (fun v => (b, v))).length)).length := hlen.symm
    _ ≤ _ := by
      apply length_le_sum_ones
      intro x hx
      obtain ⟨b, hb, rfl⟩ := List.mem_map.mp hx
      obtain ⟨v, hv, hm⟩ := hrow b (List.mem_range.mp hb)
      have : v ∈ (List.range n).filter (fun v => mask b v) :=
        List.mem_filter.mpr ⟨List.mem_range.mpr hv, hm⟩
      have hpos : 0 < ((List.range n).filter (fun v => mask b v)).length :=
        List.length_pos.mpr (List.ne_nil_of_mem this)
      simpa using hpos

theorem getD_map_lt {α β : Type} (f : α → β) (l : List α) (i : Nat) (d : β)
    (d' : α) (h : i < l.length) : (l.map f).getD i d = f (l.getD i d') := by
  rw [List.getD_eq_getElem _ _ (by simpa using h), List.getElem_map,
    List.getD_eq_getElem _ _ h]

theorem rsMap_eq (n : Nat) (edges : List (Nat × Nat)) (mask : Nat → Nat → Bool)
    (hrow : ∀ b < n, ∃ v, v < n ∧ mask b v = true)
    (hedge : ∀ e ∈ edges, e.1 < n ∧ e.2 < n) :
    rsMap n edges mask = some
      ⟨(ePairs n edges mask).map (fun q =>
          (nodeMapEntry (nPairs n mask) q.1 (edges.getD q.2 (0, 0)).1,
           nodeMapEntry (nPairs n mask) q.1 (edges.getD q.2 (0, 0)).2)),
        (nPairs n mask).map Prod.snd,
        (ePairs n edges mask).map Prod.snd,
        (nPairs n mask).map Prod.fst,
        (ePairs n edges mask).map Prod.fst⟩ := by
  set np := nPairs n mask with hnp
  set ep := ePairs n edges mask with hep
  have hmemE : ∀ q ∈ ep, q.1 < n ∧ q.2 < edges.length ∧
      mask q.1 (edges.getD q.2 (0, 0)).1 = true ∧
      mask q.1 (edges.getD q.2 (0, 0)).2 = true := by
    intro q hq
    obtain ⟨b, t⟩ := q
    exact mem_ePairs.mp hq
  have hnlen : n ≤ np.length := nPairs_length_ge hrow
  have hbound : ∀ q ∈ ep, (edges.getD q.2 (0, 0)).1 < n ∧
      (edges.getD q.2 (0, 0)).2 < n := by
    intro q hq
    have hlt := (hmemE q hq).2.1
    have hmem : edges.getD q.2 (0, 0) ∈ edges := by
      rw [List.getD_eq_getElem _ _ hlt]
      exact List.getElem_mem _
    exact hedge _ hmem
  have harith : ∀ (s b : Nat), s < n → b < n →
      s + b * n < n * n ∧ (s + b * n) / n = b ∧ (s + b * n) % n = s := by
    intro s b hs hb
    refine ⟨?_, ?_, ?_⟩
    · calc s + b * n < n + b * n := by omega
        _ = (b + 1) * n := by ring
        _ ≤ n * n := Nat.mul_le_mul_right n (by omega)
    · rw [Nat.add_mul_div_right _ _ (by omega : 0 < n), Nat.div_eq_of_lt hs]
      omega
    · rw [Nat.add_mul_mod_self_right, Nat.mod_eq_of_lt hs]
  have h1 : optIndex (fun t => edges[t]?) (ep.map Prod.snd)
      = some ((ep.map Prod.snd).map (fun t => edges.getD t (0, 0))) := by
    apply optIndex_eq_map
    intro i hi
    obtain ⟨q, hq, rfl⟩ := List.mem_map.mp hi
    have hlt := (hmemE q hq).2.1
    rw [List.getElem?_eq_getElem hlt, List.getD_eq_getElem _ _ hlt]
  have h2 : optIndex (fun b => (List.range np.length)[b]?) (ep.map Prod.fst)
      = some ((ep.map Prod.fst).map (fun b => b)) := by
    apply optIndex_eq_map
    intro b hb
    obtain ⟨q, hq, rfl⟩ := List.mem_map.mp hb
    have hlt : q.1 < np.length := Nat.lt_of_lt_of_le (hmemE q hq).1 hnlen
    rw [List.getElem?_eq_getElem (by simpa using hlt)]
    rw [List.getElem_range]
  rw [rsMap, h1, seqBind_some, h2, seqBind_some]
  have hzip : (((ep.map Prod.snd).map (fun t => edges.getD t (0, 0))).zip
        ((ep.map Prod.fst).map (fun b => b))).map
        (fun p => (p.1.1 + p.2 * n, p.1.2 + p.2 * n))
      = ep.map (fun q => ((edges.getD q.2 (0, 0)).1 + q.1 * n,
          (edges.getD q.2 (0, 0)).2 + q.1 * n)) := by
    rw [List.map_map, List.map_map, List.zip_map', List.map_map]
    rfl
  rw [hzip]
  have h3 : optIndex (fun i => flatNodeMap n np i)
      ((ep.map (fun q => ((edges.getD q.2 (0, 0)).1 + q.1 * n,
          (edges.getD q.2 (0, 0)).2 + q.1 * n))).map Prod.fst)
      = some (((ep.map (fun q => ((edges.getD q.2 (0, 0)).1 + q.1 * n,
          (edges.getD q.2 (0, 0)).2 + q.1 * n))).map Prod.fst).map
        (fun i => nodeMapEntry np (i / n) (i % n))) := by
    apply optIndex_eq_map
    intro i hi
    rw [List.map_map] at hi
    obtain ⟨q, hq, rfl⟩ := List.mem_map.mp hi
    obtain ⟨hs, -⟩ := hbound q hq
    obtain ⟨hlt, -, -⟩ := harith _ _ hs (hmemE q hq).1
    show flatNodeMap n np ((edges.getD q.2 (0, 0)).1 + q.1 * n)
      = some (nodeMapEntry np (((edges.getD q.2 (0, 0)).1 + q.1 * n) / n)
          (((edges.getD q.2 (0, 0)).1 + q.1 * n) % n))
    rw [flatNodeMap, if_pos hlt]
  have h4 : optIndex (fun i => flatNodeMap n np i)
      ((ep.map (fun q => ((edges.getD q.2 (0, 0)).1 + q.1 * n,
          (edges.getD q.2 (0, 0)).2 + q.1 * n))).map Prod.snd)
      = some (((ep.map (fun q => ((edges.getD q.2 (0, 0)).1 + q.1 * n,
          (edges.getD q.2 (0, 0)).2 + q.1 * n))).map Prod.snd).map
        (fun i => nodeMapEntry np (i / n) (i % n))) := by
    apply optIndex_eq_map
    intro i hi
    rw [List.map_map] at hi
    obtain ⟨q, hq, rfl⟩ := List.mem_map.mp hi
    obtain ⟨-, hd⟩ := hbound q hq
    obtain ⟨hlt, -, -⟩ := harith _ _ hd (hmemE q hq).1
    show flatNodeMap n np ((edges.getD q.2 (0, 0)).2 + q.1 * n)
      = some (nodeMapEntry np (((edges.getD q.2 (0, 0)).2 + q.1 * n) / n)
          (((edges.getD q.2 (0, 0)).2 + q.1 * n) % n))
    rw [flatNodeMap, if_pos hlt]
  rw [h3, seqBind_some, h4, seqBind_some]
  have hA : (((ep.map (fun q => ((edges.getD q.2 (0, 0)).1 + q.1 * n,
          (edges.getD q.2 (0, 0)).2 + q.1 * n))).map Prod.fst).map
        (fun i => nodeMapEntry np (i / n) (i % n))).zip
      (((ep.map (fun q => ((edges.getD q.2 (0, 0)).1 + q.1 * n,
          (edges.getD q.2 (0, 0)).2 + q.1 * n))).map Prod.snd).map
        (fun i => nodeMapEntry np (i / n) (i % n)))
      = ep.map (fun q =>
          (nodeMapEntry np q.1 (edges.getD q.2 (0, 0)).1,
           nodeMapEntry np q.1 (edges.getD q.2 (0, 0)).2)) := by
    rw [List.map_map, List.map_map, List.map_map, List.map_map, List.zip_map']
    apply List.map_congr_left
    intro q hq
    obtain ⟨hs, hd⟩ := hbound q hq
    obtain ⟨-, hdiv1, hmod1⟩ := harith _ _ hs (hmemE q hq).1
    obtain ⟨-, hdiv2, hmod2⟩ := harith _ _ hd (hmemE q hq).1
    simp only [Function.comp_apply]
    rw [hdiv1, hmod1, hdiv2, hmod2]
  rw [hA]
  rfl

/-- C5: `RootedSubgraph.map` performs correct batch remapping: for every
membership matrix whose rows are all nonempty, every selected edge position
`t` with batch `b = e_sub_batch[t]` has both endpoints of the original edge
marked in row `b`, the relabelled endpoints point back to the original ones
through `n_id`, and both relabelled endpoints lie in subgraph `b` according
to `n_sub_batch`. -/
theorem rsMap_spec (n : Nat) (edges : List (Nat × Nat))
    (mask : Nat → Nat → Bool)
    (hrow : ∀ b < n, ∃ v, v < n ∧ mask b v = true)
    (hedge : ∀ e ∈ edges, e.1 < n ∧ e.2 < n) :
    ∃ out, rsMap n edges mask = some out ∧
      ∀ t, t < out.eId.length →
        mask (out.eSubBatch.getD t 0)
          (edges.getD (out.eId.getD t 0) (0, 0)).1 = true ∧
        mask (out.eSubBatch.getD t 0)
          (edges.getD (out.eId.getD t 0) (0, 0)).2 = true ∧
        out.nId.getD (out.subEdgeIndex.getD t (0, 0)).1 0
          = (edges.getD (out.eId.getD t 0) (0, 0)).1 ∧
        out.nId.getD (out.subEdgeIndex.getD t (0, 0)).2 0
          = (edges.getD (out.eId.getD t 0) (0, 0)).2 ∧
        out.nSubBatch.getD (out.subEdgeIndex.getD t (0, 0)).1 0
          = out.eSubBatch.getD t 0 ∧
        out.nSubBatch.getD (out.subEdgeIndex.getD t (0, 0)).2 0
          = out.eSubBatch.getD t 0 := by
  refine ⟨_, rsMap_eq n edges mask hrow hedge, ?_⟩
  intro t ht
  simp only at ht ⊢
  rw [List.length_map] at ht
  set np := nPairs n mask with hnp
  set ep := ePairs n edges mask with hep
  set q := ep.getD t (0, 0) with hq
  have hqmem : q ∈ ep := by
    rw [hq, List.getD_eq_getElem _ _ ht]
    exact List.getElem_mem _
  have hfacts : q.1 < n ∧ q.2 < edges.length ∧
      mask q.1 (edges.getD q.2 (0, 0)).1 = true ∧
      mask q.1 (edges.getD q.2 (0, 0)).2 = true := by
    obtain ⟨b, tt⟩ := q
    exact mem_ePairs.mp hqmem
  have hsrcn : (edges.getD q.2 (0, 0)).1 < n ∧ (edges.getD q.2 (0, 0)).2 < n := by
    have hmem : edges.getD q.2 (0, 0) ∈ edges := by
      rw [List.getD_eq_getElem _ _ hfacts.2.1]
      exact List.getElem_mem _
    exact hedge _ hmem
  have heid : (ep.map Prod.snd).getD t 0 = q.2 :=
    getD_map_lt Prod.snd ep t 0 (0, 0) ht
  have hesub : (ep.map Prod.fst).getD t 0 = q.1 :=
    getD_map_lt Prod.fst ep t 0 (0, 0) ht
  have hse : (ep.map (fun q =>
      (nodeMapEntry np q.1 (edges.getD q.2 (0, 0)).1,
       nodeMapEntry np q.1 (edges.getD q.2 (0, 0)).2))).getD t (0, 0)
      = (nodeMapEntry np q.1 (edges.getD q.2 (0, 0)).1,
         nodeMapEntry np q.1 (edges.getD q.2 (0, 0)).2) :=
    getD_map_lt _ ep t (0, 0) (0, 0) ht
  rw [heid, hesub, hse]
  have hmem1 : (q.1, (edges.getD q.2 (0, 0)).1) ∈ np :=
    mem_nPairs.mpr ⟨hfacts.1, hsrcn.1, hfacts.2.2.1⟩
  have hmem2 : (q.1, (edges.getD q.2 (0, 0)).2) ∈ np :=
    mem_nPairs.mpr ⟨hfacts.1, hsrcn.2, hfacts.2.2.2⟩
  have hnm1 : nodeMapEntry np q.1 (edges.getD q.2 (0, 0)).1
      = scatterIndex np (q.1, (edges.getD q.2 (0, 0)).1) := by
    rw [nodeMapEntry, if_pos hmem1]
  have hnm2 : nodeMapEntry np q.1 (edges.getD q.2 (0, 0)).2
      = scatterIndex np (q.1, (edges.getD q.2 (0, 0)).2) := by
    rw [nodeMapEntry, if_pos hmem2]
  have hback1 := getD_scatterIndex hmem1
  have hback2 := getD_scatterIndex hmem2
  have hlt1 := scatterIndex_lt hmem1
  have hlt2 := scatterIndex_lt hmem2
  refine ⟨hfacts.2.2.1, hfacts.2.2.2, ?_, ?_, ?_, ?_⟩
  · rw [hnm1, getD_map_lt Prod.snd np _ 0 (0, 0) hlt1, hback1]
  · rw [hnm2, getD_map_lt Prod.snd np _ 0 (0, 0) hlt2, hback2]
  · rw [hnm1, getD_map_lt Prod.fst np _ 0 (0, 0) hlt1, hback1]
  · rw [hnm2, getD_map_lt Prod.fst np _ 0 (0, 0) hlt2, hback2]

/-- C5 (witness): the path graph `0 - 1` with full mask rows; both edges
survive in each subgraph and remap correctly. -/
theorem rsMap_spec_witness :
    ∃ out, rsMap 2 [(0, 1), (1, 0)] (fun _ _ => true) = some out ∧
      ∀ t, t < out.eId.length →
        (fun _ _ => true : Nat → Nat → Bool) (out.eSubBatch.getD t 0)
          (([(0, 1), (1, 0)] : List (Nat × Nat)).getD (out.eId.getD t 0) (0, 0)).1
          = true ∧
        (fun _ _ => true : Nat → Nat → Bool) (out.eSubBatch.getD t 0)
          (([(0, 1), (1, 0)] : List (Nat × Nat)).getD (out.eId.getD t 0) (0, 0)).2
          = true ∧
        out.nId.getD (out.subEdgeIndex.getD t (0, 0)).1 0
          = (([(0, 1), (1, 0)] : List (Nat × Nat)).getD (out.eId.getD t 0) (0, 0)).1 ∧
        out.nId.getD (out.subEdgeIndex.getD t (0, 0)).2 0
          = (([(0, 1), (1, 0)] : List (Nat × Nat)).getD (out.eId.getD t 0) (0, 0)).2 ∧
        out.nSubBatch.getD (out.subEdgeIndex.getD t (0, 0)).1 0
          = out.eSubBatch.getD t 0 ∧
        out.nSubBatch.getD (out.subEdgeIndex.getD t (0, 0)).2 0
          = out.eSubBatch.getD t 0 :=
  rsMap_spec 2 [(0, 1), (1, 0)] (fun _ _ => true)
    (by decide) (by decide)

/-! ### `RootedEgoNets` lemmas -/

theorem walkLe_mono {edges : List (Nat × Nat)} {k a c : Nat}
    (h : walkLe edges k a c) : walkLe edges (k + 1) a c :=
  Or.inl h

theorem walkLe_refl (edges : List (Nat × Nat)) (k a : Nat) :
    walkLe edges k a a := by
  induction k with
  | zero => rfl
  | succ k ih => exact Or.inl ih

theorem walkLe_prepend {edges : List (Nat × Nat)} {c u : Nat}
    (hcu : (c, u) ∈ edges) :
    ∀ {k a : Nat}, walkLe edges k u a → walkLe edges (k + 1) c a := by
  intro k
  induction k with
  | zero =>
    intro a h
    cases h
    exact Or.inr ⟨c, hcu, rfl⟩
  | succ k ih =>
    intro a h
    rcases h with h | ⟨w, hw, hwalk⟩
    · exact walkLe_mono (ih h)
    · exact Or.inr ⟨w, hw, ih hwalk⟩

theorem walkLe_symm {edges : List (Nat × Nat)}
    (hsym : ∀ e ∈ edges, (e.2, e.1) ∈ edges) :
    ∀ {k a c : Nat}, walkLe edges k a c → walkLe edges k c a := by
  intro k
  induction k with
  | zero => intro a c h; exact h.symm
  | succ k ih =>
    intro a c h
    rcases h with h | ⟨u, hu, hw⟩
    · exact Or.inl (ih h)
    · exact walkLe_prepend (hsym (u, c) hu) (ih hw)

theorem egoMask_pos_iff {n : Nat} {edges : List (Nat × Nat)}
    (hedge : ∀ e ∈ edges, e.1 < n ∧ e.2 < n) :
    ∀ (k : Nat) {i j : Nat}, i < n → j < n →
      (0 < egoMask n edges k i j ↔ walkLe edges k j i) := by
  intro k
  induction k with
  | zero =>
    intro i j _ _
    have hunfold : egoMask n edges 0 i j = if i = j then 1 else 0 := rfl
    rw [hunfold]
    constructor
    · intro hpos
      by_cases h : i = j
      · exact (show walkLe edges 0 j i from h.symm)
      · rw [if_neg h] at hpos
        omega
    · intro hw
      have hji : j = i := hw
      rw [if_pos hji.symm]
      omega
  | succ k ih =>
    intro i j hi hj
    have hunfold : egoMask n edges (k + 1) i j
        = egoMask n edges k i j + ∑ u ∈ Finset.range n,
            edges.count (u, i) * egoMask n edges k u j := rfl
    rw [hunfold]
    have hsum : (0 < ∑ u ∈ Finset.range n,
        edges.count (u, i) * egoMask n edges k u j)
        ↔ ∃ u, (u, i) ∈ edges ∧ walkLe edges k j u := by
      rw [Nat.pos_iff_ne_zero, Ne, Finset.sum_eq_zero_iff]
      constructor
      · intro h
        push_neg at h
        obtain ⟨u, hu, hne⟩ := h
        have hcount : 0 < edges.count (u, i) := by
          rcases Nat.eq_zero_or_pos (edges.count (u, i)) with h0 | h0
          · rw [h0, Nat.zero_mul] at hne
            exact absurd rfl hne
          · exact h0
        have hM : 0 < egoMask n edges k u j := by
          rcases Nat.eq_zero_or_pos (egoMask n edges k u j) with h0 | h0
          · rw [h0, Nat.mul_zero] at hne
            exact absurd rfl hne
          · exact h0
        have hmem : (u, i) ∈ edges := List.count_pos_iff.mp hcount
        exact ⟨u, hmem, (ih (Finset.mem_range.mp hu) hj).mp hM⟩
      · rintro ⟨u, hu, hw⟩ h
        have hun : u < n := (hedge (u, i) hu).1
        have hcount : 0 < edges.count (u, i) := List.count_pos_iff.mpr hu
        have hM : 0 < egoMask n edges k u j := (ih hun hj).mpr hw
        have hne : edges.count (u, i) * egoMask n edges k u j ≠ 0 :=
          Nat.mul_ne_zero (by omega) (by omega)
        exact hne (h u (Finset.mem_range.mpr hun))
    constructor
    · intro hpos
      by_cases h1 : 0 < egoMask n edges k i j
      · exact Or.inl ((ih hi hj).mp h1)
      · have h2 : 0 < ∑ u ∈ Finset.range n,
            edges.count (u, i) * egoMask n edges k u j := by omega
        exact Or.inr (hsum.mp h2)
    · intro hw
      rcases hw with h | h
      · have := (ih hi hj).mpr h
        omega
      · have := hsum.mpr h
        omega

theorem egoMask_diag_pos (n : Nat) (edges : List (Nat × Nat)) :
    ∀ (k b : Nat), 0 < egoMask n edges k b b := by
  intro k
  induction k with
  | zero =>
    intro b
    have hunfold : egoMask n edges 0 b b = if b = b then 1 else 0 := rfl
    rw [hunfold, if_pos rfl]
    omega
  | succ k ih =>
    intro b
    have hunfold : egoMask n edges (k + 1) b b
        = egoMask n edges k b b + ∑ u ∈ Finset.range n,
            edges.count (u, b) * egoMask n edges k u b := rfl
    rw [hunfold]
    have := ih b
    omega

/-- C4: `RootedEgoNets` performs `k`-hop subgraph extraction: on a
symmetric graph the node mask places `v` in the subgraph rooted at `b` iff
there is a walk of length at most `k` between `b` and `v`; every root
belongs to its own subgraph; the extracted edge set of subgraph `b`
consists exactly of the edges with both endpoints in that subgraph; and
the extraction succeeds. -/
theorem egoExtract_spec (k n : Nat) (edges : List (Nat × Nat))
    (hedge : ∀ e ∈ edges, e.1 < n ∧ e.2 < n)
    (hsym : ∀ e ∈ edges, (e.2, e.1) ∈ edges) :
    (∀ b v, b < n → v < n →
      ((b, v) ∈ nPairs n (egoMaskB k n edges) ↔ walkLe edges k b v)) ∧
    (∀ b, b < n → (b, b) ∈ nPairs n (egoMaskB k n edges)) ∧
    (∀ b t, (b, t) ∈ ePairs n edges (egoMaskB k n edges) ↔
      b < n ∧ t < edges.length ∧
      (b, (edges.getD t (0, 0)).1) ∈ nPairs n (egoMaskB k n edges) ∧
      (b, (edges.getD t (0, 0)).2) ∈ nPairs n (egoMaskB k n edges)) ∧
    (egoExtract k n edges).isSome = true := by
  have hmaskiff : ∀ b v, b < n → v < n →
      (egoMaskB k n edges b v = true ↔ walkLe edges k b v) := by
    intro b v hb hv
    rw [egoMaskB, decide_eq_true_eq, egoMask_pos_iff hedge k hb hv]
    exact ⟨walkLe_symm hsym, walkLe_symm hsym⟩
  refine ⟨?_, ?_, ?_, ?_⟩
  · intro b v hb hv
    rw [mem_nPairs]
    constructor
    · rintro ⟨-, -, hm⟩
      exact (hmaskiff b v hb hv).mp hm
    · intro hw
      exact ⟨hb, hv, (hmaskiff b v hb hv).mpr hw⟩
  · intro b hb
    refine mem_nPairs.mpr ⟨hb, hb, ?_⟩
    rw [egoMaskB, decide_eq_true_eq]
    exact egoMask_diag_pos n edges k b
  · intro b t
    rw [mem_ePairs]
    constructor
    · rintro ⟨hb, ht, h1, h2⟩
      have hmem : edges.getD t (0, 0) ∈ edges := by
        rw [List.getD_eq_getElem _ _ ht]
        exact List.getElem_mem _
      obtain ⟨hs, hd⟩ := hedge _ hmem
      exact ⟨hb, ht, mem_nPairs.mpr ⟨hb, hs, h1⟩, mem_nPairs.mpr ⟨hb, hd, h2⟩⟩
    · rintro ⟨hb, ht, h1, h2⟩
      obtain ⟨-, -, hm1⟩ := mem_nPairs.mp h1
      obtain ⟨-, -, hm2⟩ := mem_nPairs.mp h2
      exact ⟨hb, ht, hm1, hm2⟩
  · have hrow : ∀ b < n, ∃ v, v < n ∧ egoMaskB k n edges b v = true :=
      fun b hb => ⟨b, hb, by
        rw [egoMaskB, decide_eq_true_eq]
        exact egoMask_diag_pos n edges k b⟩
    rw [egoExtract, rsMap_eq n edges _ hrow hedge]
    rfl

/-- C4 (witness): the single symmetric edge `0 - 1` with one hop; each
root belongs to its own ego net. -/
theorem egoExtract_spec_witness :
    (0, 0) ∈ nPairs 2 (egoMaskB 1 2 [(0, 1), (1, 0)]) ∧
    (1, 1) ∈ nPairs 2 (egoMaskB 1 2 [(0, 1), (1, 0)]) :=
  ⟨(egoExtract_spec 1 2 [(0, 1), (1, 0)] (by decide) (by decide)).2.1
      0 (by decide),
   (egoExtract_spec 1 2 [(0, 1), (1, 0)] (by decide) (by decide)).2.1
      1 (by decide)⟩

/-! ### `RootedRWSubgraph` lemmas -/

theorem zip_replicate_mem {b v s : Nat} :
    ∀ (m : Nat) (row : List Nat), row.length = m →
    ((b, v) ∈ (List.replicate m s).zip row ↔ b = s ∧ v ∈ row) := by
  intro m
  induction m with
  | zero =>
    intro row hrow
    rw [List.length_eq_zero] at hrow
    subst hrow
    simp
  | succ m ih =>
    intro row hrow
    cases row with
    | nil => simp at hrow
    | cons x rt =>
      rw [List.replicate_succ, List.zip_cons_cons]
      simp only [List.mem_cons]
      rw [ih rt (by simpa using hrow)]
      constructor
      · rintro (heq | ⟨rfl, hv⟩)
        · cases heq
          exact ⟨rfl, Or.inl rfl⟩
        · exact ⟨rfl, Or.inr hv⟩
      · rintro ⟨rfl, rfl | hv2⟩
        · exact Or.inl rfl
        · exact Or.inr ⟨rfl, hv2⟩

theorem zip_expand_mem (m : Nat) :
    ∀ (starts : List Nat) (rows : List (List Nat)),
    starts.length = rows.length →
    (∀ row ∈ rows, row.length = m) →
    ∀ b v, ((b, v) ∈ (starts.flatMap (fun s => List.replicate m s)).zip
        rows.flatten ↔
      ∃ j, j < rows.length ∧ starts.getD j 0 = b ∧ v ∈ rows.getD j []) := by
  intro starts
  induction starts with
  | nil =>
    intro rows hlen _ b v
    have : rows = [] := by
      rw [← List.length_eq_zero, ← hlen]
      rfl
    subst this
    simp
  | cons s st ih =>
    intro rows hlen hrows b v
    cases rows with
    | nil => simp at hlen
    | cons row rt =>
      rw [List.flatMap_cons, List.flatten_cons]
      have hrowlen : row.length = m := hrows row (List.mem_cons_self _ _)
      have hzipapp : ((List.replicate m s
            ++ st.flatMap (fun s => List.replicate m s)).zip
          (row ++ rt.flatten))
          = (List.replicate m s).zip row
            ++ (st.flatMap (fun s => List.replicate m s)).zip rt.flatten := by
        apply List.zip_append
        simp [hrowlen]
      rw [hzipapp, List.mem_append, zip_replicate_mem m row hrowlen,
        ih rt (by simpa using hlen)
          (fun q hq => hrows q (List.mem_cons_of_mem _ hq)) b v]
      constructor
      · rintro (⟨rfl, hv⟩ | ⟨j, hj, hs, hv⟩)
        · exact ⟨0, by simp, rfl, by simpa using hv⟩
        · exact ⟨j + 1, by simpa using hj, by simpa using hs, by simpa using hv⟩
      · rintro ⟨j, hj, hs, hv⟩
        cases j with
        | zero =>
          left
          refine ⟨(show s = b by simpa using hs).symm, by simpa using hv⟩
        | succ j =>
          right
          exact ⟨j, by simpa using hj, by simpa using hs, by simpa using hv⟩

theorem rwStart_length (n r : Nat) : (rwStart n r).length = n * r := by
  induction n with
  | zero => simp [rwStart]
  | succ m ih =>
    have hsplit : rwStart (m + 1) r = rwStart m r ++ List.replicate r m := by
      rw [rwStart, rwStart, List.range_succ, List.flatMap_append,
        List.flatMap_singleton]
    rw [hsplit, List.length_append, ih, List.length_replicate]
    ring

theorem rwStart_getD {r b : Nat} (hr : 1 ≤ r) :
    ∀ {n : Nat}, b < n → (rwStart n r).getD (b * r) 0 = b := by
  intro n
  induction n with
  | zero => intro hb; omega
  | succ m ih =>
    intro hb
    have hsplit : rwStart (m + 1) r = rwStart m r ++ List.replicate r m := by
      rw [rwStart, rwStart, List.range_succ, List.flatMap_append,
        List.flatMap_singleton]
    rw [hsplit]
    by_cases hbm : b < m
    · rw [List.getD_append _ _ _ _ (by
        rw [rwStart_length]
        exact (Nat.mul_lt_mul_right (by omega : 0 < r)).mpr hbm)]
      exact ih hbm
    · have hbe : b = m := by omega
      subst hbe
      rw [List.getD_append_right _ _ _ _ (by rw [rwStart_length])]
      rw [rwStart_length]
      cases r with
      | zero => omega
      | succ r2 =>
        rw [Nat.sub_self, List.replicate_succ]
        rfl

theorem mem_of_headq {l : List Nat} {x : Nat} (h : l.head? = some x) : x ∈ l := by
  cases l with
  | nil => cases h
  | cons a t =>
    rw [List.head?_cons] at h
    cases h
    exact List.mem_cons_self _ _

/-- C6: `RootedRWSubgraph` performs random-walk subgraph extraction: for
every walk tensor with one row of length `walk_length + 1` per start node,
the node mask marks `v` in the subgraph rooted at `b` iff one of the walks
started at `b` visits `v`; in particular, when each walk begins at its
start node, every root belongs to its own subgraph. -/
theorem rwMask_spec (n r wl : Nat) (walk : List (List Nat))
    (hr : 1 ≤ r)
    (hlen : walk.length = n * r)
    (hrows : ∀ row ∈ walk, row.length = wl + 1)
    (hstart : ∀ i, i < n * r →
      (walk.getD i []).head? = some ((rwStart n r).getD i 0)) :
    (∀ b v, rwMask n r wl walk b v = true ↔
      ∃ i, i < n * r ∧ (rwStart n r).getD i 0 = b ∧ v ∈ walk.getD i []) ∧
    (∀ b, b < n → rwMask n r wl walk b b = true) := by
  have hmain : ∀ b v, rwMask n r wl walk b v = true ↔
      ∃ i, i < n * r ∧ (rwStart n r).getD i 0 = b ∧ v ∈ walk.getD i [] := by
    intro b v
    rw [rwMask, decide_eq_true_eq, rwStartExpanded]
    rw [zip_expand_mem (wl + 1) (rwStart n r) walk
      (by rw [rwStart_length, hlen]) hrows b v]
    rw [hlen]
  refine ⟨hmain, fun b hb => ?_⟩
  rw [hmain b b]
  have hbr : b * r < n * r := (Nat.mul_lt_mul_right (by omega : 0 < r)).mpr hb
  refine ⟨b * r, hbr, rwStart_getD hr hb, ?_⟩
  have hs := hstart (b * r) hbr
  rw [rwStart_getD hr hb] at hs
  exact mem_of_headq hs

/-- C6 (witness): two nodes, one walk of length 1 per node, each starting
at its node; both roots are members of their own subgraphs. -/
theorem rwMask_spec_witness :
    rwMask 2 1 1 [[0, 1], [1, 0]] 0 0 = true ∧
    rwMask 2 1 1 [[0, 1], [1, 0]] 1 1 = true :=
  ⟨(rwMask_spec 2 1 1 [[0, 1], [1, 0]] (by decide) (by decide) (by decide)
    (by decide)).2 0 (by decide),
   (rwMask_spec 2 1 1 [[0, 1], [1, 0]] (by decide) (by decide) (by decide)
    (by decide)).2 1 (by decide)⟩

theorem mem_zip_snd {i : Nat} :
    ∀ (src : List ℝ) (index : List Nat), index.length ≤ src.length →
      i ∈ index → ∃ x, (x, i) ∈ src.zip index := by
  intro src index
  induction index generalizing src with
  | nil => intro _ h; cases h
  | cons b t ih =>
    intro hle hmem
    cases src with
    | nil => simp at hle
    | cons a s =>
      rcases List.mem_cons.mp hmem with rfl | hmem2
      · exact ⟨a, List.mem_cons_self _ _⟩
      · obtain ⟨x, hx⟩ := ih s (by simpa using Nat.le_of_succ_le_succ hle) hmem2
        exact ⟨x, List.mem_cons_of_mem _ hx⟩

theorem seg_sum_eq (f : ℝ × Nat → ℝ) (i : Nat) :
    ∀ (src : List ℝ) (index : List Nat), src.length = index.length →
      ((((src.zip index).map f).zip index).filter
          (fun q => q.2 == i)).map (fun q => q.1) =
        ((src.zip index).filter (fun q => q.2 == i)).map f := by
  intro src
  induction src with
  | nil =>
    intro index h
    cases index with
    | nil => rfl
    | cons b s => cases h
  | cons a t ih =>
    intro index h
    cases index with
    | nil => cases h
    | cons b s =>
      have hl : t.length = s.length := by simpa using h
      by_cases hb : b = i
      · have h1 : ((b == i) : Bool) = true := by simpa using hb
        show (((f (a, b), b) :: ((t.zip s).map f).zip s).filter
            (fun q => q.2 == i)).map (fun q => q.1) =
          (((a, b) :: t.zip s).filter (fun q => q.2 == i)).map f
        rw [List.filter_cons, List.filter_cons, if_pos h1, if_pos h1,
          List.map_cons, List.map_cons, ih s hl]
      · have h1 : ¬ (((b == i) : Bool) = true) := by simp [hb]
        show (((f (a, b), b) :: ((t.zip s).map f).zip s).filter
            (fun q => q.2 == i)).map (fun q => q.1) =
          (((a, b) :: t.zip s).filter (fun q => q.2 == i)).map f
        rw [List.filter_cons, List.filter_cons, if_neg h1, if_neg h1, ih s hl]

theorem map_zip_filter_fst {α : Type} (g : α → ℝ) (i : Nat) :
    ∀ (l : List α) (idx : List Nat),
      (((l.map g).zip idx).filter (fun q => q.2 == i)).map (fun q => q.1) =
        ((l.zip idx).filter (fun q => q.2 == i)).map (fun q => g q.1) := by
  intro l
  induction l with
  | nil => intro idx; rfl
  | cons a t ih =>
    intro idx
    cases idx with
    | nil => rfl
    | cons b s =>
      by_cases hb : b = i
      · have h1 : ((b == i) : Bool) = true := by simpa using hb
        show (((g a, b) :: (t.map g).zip s).filter
            (fun q => q.2 == i)).map (fun q => q.1) =
          (((a, b) :: t.zip s).filter (fun q => q.2 == i)).map (fun q => g q.1)
        rw [List.filter_cons, List.filter_cons, if_pos h1, if_pos h1,
          List.map_cons, List.map_cons, ih s]
      · have h1 : ¬ (((b == i) : Bool) = true) := by simp [hb]
        show (((g a, b) :: (t.map g).zip s).filter
            (fun q => q.2 == i)).map (fun q => q.1) =
          (((a, b) :: t.zip s).filter (fun q => q.2 == i)).map (fun q => g q.1)
        rw [List.filter_cons, List.filter_cons, if_neg h1, if_neg h1, ih s]

theorem segExpSum_pos (src : List ℝ) (index : List Nat) {i : Nat}
    (hle : index.length ≤ src.length) (hi : i ∈ index) :
    0 < segExpSum src index i := by
  obtain ⟨x, hx⟩ := mem_zip_snd src index hle hi
  have hxf : (x, i) ∈ (src.zip index).filter (fun q => q.2 == i) :=
    List.mem_filter.mpr ⟨hx, by simp⟩
  have hmem : Real.exp x ∈
      ((src.zip index).filter (fun q => q.2 == i)).map (fun q => Real.exp q.1) :=
    List.mem_map.mpr ⟨(x, i), hxf, rfl⟩
  rw [segExpSum]
  apply List.sum_pos
  · intro y hy
    obtain ⟨q, hq1, hq2⟩ := List.mem_map.mp hy
    exact hq2 ▸ Real.exp_pos q.1
  · exact List.ne_nil_of_mem hmem

theorem segExpSum_nonneg (src : List ℝ) (index : List Nat) (i : Nat) :
    0 ≤ segExpSum src index i := by
  rw [segExpSum]
  apply List.sum_nonneg
  intro y hy
  obtain ⟨q, hq1, hq2⟩ := List.mem_map.mp hy
  exact hq2 ▸ (Real.exp_pos q.1).le

/-- C7: the softmax-over-segments used in AGNNConv.message is a correct
segment-wise normalization: every attention coefficient is nonnegative; for
every target node that receives at least one message, the coefficients of the
edges pointing to that node sum to 1; and the aggregated output at each target
node is the corresponding weighted combination of the incoming source
features — hence a convex combination. -/
theorem agnn_softmax_spec (beta : ℝ) (cosSim : List ℝ) (index : List Nat)
    (xj : List ℝ) (hlen : cosSim.length = index.length) :
    (∀ a ∈ agnnAlpha beta cosSim index, 0 ≤ a) ∧
    (∀ i ∈ index,
      ((((agnnAlpha beta cosSim index).zip index).filter
          (fun q => q.2 == i)).map (fun q => q.1)).sum = 1) ∧
    (∀ i : Nat,
      agnnOut beta cosSim index xj i =
        ((((xj.zip (agnnAlpha beta cosSim index)).zip index).filter
            (fun q => q.2 == i)).map (fun q => q.1.1 * q.1.2)).sum) := by
  have hlen' : (cosSim.map (fun c => beta * c)).length = index.length := by
    simpa using hlen
  refine ⟨?_, ?_, ?_⟩
  · intro a ha
    rw [agnnAlpha, segSoftmax] at ha
    obtain ⟨p, hp, rfl⟩ := List.mem_map.mp ha
    exact div_nonneg (Real.exp_pos p.1).le
      (segExpSum_nonneg (cosSim.map (fun c => beta * c)) index p.2)
  · intro i hi
    have halpha : agnnAlpha beta cosSim index =
        ((cosSim.map (fun c => beta * c)).zip index).map
          (fun p => Real.exp p.1 /
            segExpSum (cosSim.map (fun c => beta * c)) index p.2) := rfl
    rw [halpha, seg_sum_eq _ i _ index hlen']
    have hpos : 0 < segExpSum (cosSim.map (fun c => beta * c)) index i :=
      segExpSum_pos _ index (le_of_eq hlen'.symm) hi
    have hcong : (((cosSim.map (fun c => beta * c)).zip index).filter
          (fun q => q.2 == i)).map
          (fun p => Real.exp p.1 /
            segExpSum (cosSim.map (fun c => beta * c)) index p.2) =
        (((cosSim.map (fun c => beta * c)).zip index).filter
          (fun q => q.2 == i)).map
          (fun p => Real.exp p.1 *
            (segExpSum (cosSim.map (fun c => beta * c)) index i)⁻¹) := by
      apply List.map_congr_left
      intro q hq
      have hq2 : q.2 = i := by
        have := (List.mem_filter.mp hq).2
        simpa using this
      show Real.exp q.1 / segExpSum (cosSim.map (fun c => beta * c)) index q.2 =
        Real.exp q.1 * (segExpSum (cosSim.map (fun c => beta * c)) index i)⁻¹
      rw [hq2, div_eq_mul_inv]
    rw [hcong, List.sum_map_mul_right]
    have hsum : ((((cosSim.map (fun c => beta * c)).zip index).filter
        (fun q => q.2 == i)).map (fun p => Real.exp p.1)).sum =
        segExpSum (cosSim.map (fun c => beta * c)) index i := rfl
    rw [hsum, mul_inv_cancel₀ (ne_of_gt hpos)]
  · intro i
    have hout : agnnOut beta cosSim index xj i =
        (((((xj.zip (agnnAlpha beta cosSim index)).map
            (fun p : ℝ × ℝ => p.1 * p.2)).zip index).filter
          (fun q => q.2 == i)).map (fun q : ℝ × Nat => q.1)).sum := rfl
    rw [hout, map_zip_filter_fst (fun p : ℝ × ℝ => p.1 * p.2) i
      (xj.zip (agnnAlpha beta cosSim index)) index]

/-- Witness for the C7 theorem: a concrete two-edge instance with both
edges pointing at node 0. -/
theorem agnn_softmax_spec_witness :
    ([(1 : ℝ), (0 : ℝ)].length = ([0, 0] : List Nat).length) ∧
    (∀ a ∈ agnnAlpha 1 [(1 : ℝ), (0 : ℝ)] [0, 0], 0 ≤ a) :=
  ⟨rfl, (agnn_softmax_spec 1 [(1 : ℝ), (0 : ℝ)] [0, 0] [(3 : ℝ), (4 : ℝ)]
    rfl).1⟩

end PG
